import Mathlib

/-!
Verification of the incremental range-synchronization engine of
`rotkehlchen/chain/ethereum/transactions.py` and of the Uniswap v2
accountant settings of
`rotkehlchen/chain/ethereum/modules/uniswap/v2/accountant.py`.

The engine is embedded shallowly: every interaction with the database
layer, the remote source (etherscan / ethereum nodes) and the message
aggregator is recorded as an `Event` in an explicit trace, and the
transaction store is threaded as explicit state.  External collaborators
(the etherscan client, the query-range bookkeeping of `DBQueryRanges`,
the store layer `DBEthTx`) are not under `src/`; where their behaviour
matters they are modelled from the spec and marked as such.
-/

abbrev Timestamp := Nat
abbrev Address := Nat
abbrev EVMTxHash := Nat

/-- An ethereum transaction as used by the engine: only the fields the
engine reads (`tx_hash` for identity/lookup, `timestamp` for watermarks,
`from_address` for the receipt backfill) are carried. -/
structure EthereumTransaction where
  tx_hash : EVMTxHash
  timestamp : Timestamp
  from_address : Address
  deriving DecidableEq, Repr, Inhabited

/-- An internal ethereum transaction: identity is (parent hash, trace id);
it carries its own timestamp so that we can state that watermarks never
use it. -/
structure EthereumInternalTransaction where
  parent_tx_hash : EVMTxHash
  trace_id : Nat
  timestamp : Timestamp
  deriving DecidableEq, Repr, Inhabited

/-- A transaction receipt, identified by its transaction hash. -/
structure EthereumTxReceipt where
  tx_hash : EVMTxHash
  data : Nat
  deriving DecidableEq, Repr, Inhabited

/-- One observable interaction of the engine with its collaborators:
remote fetches, store writes, query-range updates and error messages
sent to the msg_aggregator. -/
inductive Event where
  | fetchRange (action : String) (address : Address) (from_ts to_ts : Timestamp)
  | fetchTxByHash (tx_hash : EVMTxHash)
  | fetchReceipt (tx_hash : EVMTxHash)
  | addTx (txs : List EthereumTransaction) (relevant_address : Option Address)
  | addInternalTx (txs : List EthereumInternalTransaction) (relevant_address : Address)
  | addReceipt (receipt : EthereumTxReceipt)
  | updateRange (location : String) (start_ts end_ts : Timestamp)
  | addError (address : Address) (from_ts to_ts : Timestamp)
  deriving DecidableEq, Repr

/-- The transaction store.  `DBEthTx` of `rotkehlchen/db/ethtx.py` is not
under `src/`; its state is modelled from the spec (TransactionStore,
spec section 4.2): rows keyed by identity, upsert semantics. -/
structure DBEthTx where
  ethereum_txs : List (EthereumTransaction × Option Address)
  internal_txs : List (EthereumInternalTransaction × Address)
  receipts : List EthereumTxReceipt
  deriving DecidableEq, Repr

/-- Modelled from the spec: TransactionStore.putTransactions for one row
(spec section 4.2) — upsert keyed by hash: an existing row by identity is
left untouched, a new row is inserted (`DBEthTx.add_ethereum_transactions`
of `rotkehlchen/db/ethtx.py` is not under `src/`). -/
def DBEthTx.addTx1 (db : DBEthTx) (t : EthereumTransaction) (ra : Option Address) : DBEthTx :=
  if db.ethereum_txs.any (fun p => p.1.tx_hash == t.tx_hash) then db
  else { db with ethereum_txs := db.ethereum_txs ++ [(t, ra)] }

/-- Modelled from the spec: TransactionStore.putTransactions (spec
section 4.2), upsert of a list of rows in order. -/
def DBEthTx.add_ethereum_transactions (db : DBEthTx) (txs : List EthereumTransaction) (ra : Option Address) : DBEthTx :=
  txs.foldl (fun d t => d.addTx1 t ra) db

/-- Modelled from the spec: TransactionStore.putInternalTransactions for
one row (spec section 4.2) — upsert keyed by (parent hash, trace id). -/
def DBEthTx.addInternalTx1 (db : DBEthTx) (t : EthereumInternalTransaction) (ra : Address) : DBEthTx :=
  if db.internal_txs.any (fun p => p.1.parent_tx_hash == t.parent_tx_hash && p.1.trace_id == t.trace_id) then db
  else { db with internal_txs := db.internal_txs ++ [(t, ra)] }

/-- Modelled from the spec: TransactionStore.putInternalTransactions
(spec section 4.2), upsert of a list of rows in order. -/
def DBEthTx.add_ethereum_internal_transactions (db : DBEthTx) (txs : List EthereumInternalTransaction) (ra : Address) : DBEthTx :=
  txs.foldl (fun d t => d.addInternalTx1 t ra) db

/-- Modelled from the spec: the store lookup used by the engine,
`DBEthTx.get_ethereum_transactions(ETHTransactionsFilterQuery.make(tx_hash=h))`
— the rows whose hash is `h` (read-only, side-effect free). -/
def DBEthTx.get_ethereum_transactions (db : DBEthTx) (h : EVMTxHash) : List EthereumTransaction :=
  (db.ethereum_txs.filter (fun p => p.1.tx_hash == h)).map (fun p => p.1)

/-- Modelled from the spec: TransactionStore receipt lookup by transaction
hash (spec section 4.2). -/
def DBEthTx.get_receipt (db : DBEthTx) (h : EVMTxHash) : Option EthereumTxReceipt :=
  db.receipts.find? (fun r => r.tx_hash == h)

/-- Modelled from the spec: TransactionStore.putReceipt — upsert by
transaction hash (spec section 4.2). -/
def DBEthTx.add_receipt_data (db : DBEthTx) (r : EthereumTxReceipt) : DBEthTx :=
  if db.receipts.any (fun q => q.tx_hash == r.tx_hash) then db
  else { db with receipts := db.receipts ++ [r] }

/-- The filter argument of `EthTransactions.query`: the fields the engine
itself reads (`rotkehlchen/db/filtering.py` is not under `src/`). -/
structure ETHTransactionsFilterQuery where
  addresses : Option (List Address)
  from_ts : Option Timestamp
  to_ts : Option Timestamp
  deriving DecidableEq, Repr

/-- Modelled from the spec: the read-only store query backing
`query` — `(records, totalCountIgnoringLimit)` filtered by the given
filter (`DBEthTx.get_ethereum_transactions_and_limit_info` of
`rotkehlchen/db/ethtx.py` is not under `src/`). -/
def DBEthTx.get_ethereum_transactions_and_limit_info (db : DBEthTx) (f : ETHTransactionsFilterQuery) (has_premium : Bool) : List EthereumTransaction × Nat :=
  let rows := db.ethereum_txs.filterMap fun p =>
    let addrOk := match f.addresses with
      | none => true
      | some l => l.contains p.1.from_address ||
          (match p.2 with | some r => l.contains r | none => false)
    let fromOk := match f.from_ts with | none => true | some t => decide (t ≤ p.1.timestamp)
    let toOk := match f.to_ts with | none => true | some t => decide (p.1.timestamp ≤ t)
    if addrOk && fromOk && toOk then some p.1 else none
  let _ := has_premium
  (rows, rows.length)

/-- The environment: external collaborators of the engine.  The etherscan
client yields, for a window, the list of batches it produces followed by a
flag saying whether the generator then raises `RemoteError`; by-hash
fetches return `none` when they raise `RemoteError`.  The query-range
bookkeeping (`DBQueryRanges.get_location_query_ranges` of
`rotkehlchen/db/ranges.py`, not under `src/`) is modelled from the spec as
a gap oracle consulted once per category sync. -/
structure Env where
  etherscan_get_transactions : Address → Timestamp → Timestamp → List (List EthereumTransaction) × Bool
  etherscan_get_internal_transactions : Address → Timestamp → Timestamp → List (List EthereumInternalTransaction) × Bool
  etherscan_get_token_transaction_hashes : Address → Timestamp → Timestamp → List (List EVMTxHash) × Bool
  get_transaction_by_hash : EVMTxHash → Option EthereumTransaction
  get_transaction_receipt : EVMTxHash → Option EthereumTxReceipt
  get_location_query_ranges : String → Timestamp → Timestamp → List (Timestamp × Timestamp)
  blockchain_accounts_eth : List Address
  ts_now : Timestamp

/-- Modelled from the spec: the category string constants of
`rotkehlchen/chain/ethereum/constants.py` (not under `src/`); only their
distinctness matters. -/
def RANGE_PREFIX_ETHTX : String := "ethtxs"

/-- Modelled from the spec: see `RANGE_PREFIX_ETHTX`. -/
def RANGE_PREFIX_ETHINTERNALTX : String := "ethinternaltxs"

/-- Modelled from the spec: see `RANGE_PREFIX_ETHTX`. -/
def RANGE_PREFIX_ETHTOKENTX : String := "ethtokentxs"

/-- The location string `f'{range_prefix}_{address}'` used as the
query-range key of one (category, address) timeline. -/
def locationOf (pre : String) (address : Address) : String :=
  pre ++ "_" ++ toString address

/-- The timestamp of the last element of a batch, as in
`new_transactions[-1].timestamp`; only applied to non-empty batches
(guarded, as in the source). -/
def lastTimestamp (l : List EthereumTransaction) : Timestamp :=
  match l.getLast? with
  | some t => t.timestamp
  | none => 0

namespace EthTransactions

/-- The body of the `for new_transactions in ...get_transactions(...)`
loop of `_get_transactions_for_range` (transactions.py lines 131-149):
each non-empty batch is stored and then the range
`(query_start_ts, new_transactions[-1].timestamp)` is marked queried. -/
def processTxBatches (loc : String) (a : Address) (qs : Timestamp) :
    DBEthTx → List (List EthereumTransaction) → DBEthTx × List Event
  | db, [] => (db, [])
  | db, batch :: rest =>
    if batch.isEmpty then processTxBatches loc a qs db rest
    else
      let db1 := db.add_ethereum_transactions batch (some a)
      let r := processTxBatches loc a qs db1 rest
      (r.1, Event.addTx batch (some a) :: Event.updateRange loc qs (lastTimestamp batch) :: r.2)

/-- The `for query_start_ts, query_end_ts in ranges_to_query` loop of
`_get_transactions_for_range` (transactions.py lines 131-159): on
`RemoteError` one error message is emitted and the whole function
returns.  Also returns the list of windows whose except-branch ran. -/
def txGapsLoop (env : Env) (loc : String) (a : Address) :
    DBEthTx → List (Timestamp × Timestamp) → DBEthTx × List Event × List (Timestamp × Timestamp)
  | db, [] => (db, [], [])
  | db, (qs, qe) :: rest =>
    let res := env.etherscan_get_transactions a qs qe
    let r1 := processTxBatches loc a qs db res.1
    if res.2 then
      (r1.1, Event.fetchRange "txlist" a qs qe :: r1.2 ++ [Event.addError a qs qe], [(qs, qe)])
    else
      let r2 := txGapsLoop env loc a r1.1 rest
      (r2.1, Event.fetchRange "txlist" a qs qe :: r1.2 ++ r2.2.1, r2.2.2)

/-- `_get_transactions_for_range` (transactions.py lines 113-164).  The
final full-window `update_used_query_range` runs only when no gap
raised (`return` inside the except-branch). -/
def get_transactions_for_range (env : Env) (db : DBEthTx) (address : Address) (start_ts end_ts : Timestamp) : DBEthTx × List Event :=
  let location := locationOf RANGE_PREFIX_ETHTX address
  let ranges_to_query := env.get_location_query_ranges location start_ts end_ts
  let r := txGapsLoop env location address db ranges_to_query
  if r.2.2.isEmpty then
    (r.1, r.2.1 ++ [Event.updateRange location start_ts end_ts])
  else
    (r.1, r.2.1)

/-- One iteration of the `for internal_tx in new_internal_txs` loop of
`_get_internal_transactions_for_ranges` (transactions.py lines 194-217):
look the parent up, fetch and store it if absent (`none` when the by-hash
fetch raises `RemoteError`), store the internal transaction, and mark
`(query_start_ts, timestamp)` queried where `timestamp` is the parent's
timestamp. -/
def processInternalTx (env : Env) (loc : String) (a : Address) (qs : Timestamp)
    (db : DBEthTx) (internal_tx : EthereumInternalTransaction) : Option (DBEthTx × List Event) :=
  match db.get_ethereum_transactions internal_tx.parent_tx_hash with
  | [] =>
    match env.get_transaction_by_hash internal_tx.parent_tx_hash with
    | none => none
    | some transaction =>
      let db1 := db.add_ethereum_transactions [transaction] (some a)
      let db2 := db1.add_ethereum_internal_transactions [internal_tx] a
      some (db2,
        [Event.fetchTxByHash internal_tx.parent_tx_hash,
         Event.addTx [transaction] (some a),
         Event.addInternalTx [internal_tx] a,
         Event.updateRange loc qs transaction.timestamp])
  | t :: _ =>
    let db2 := db.add_ethereum_internal_transactions [internal_tx] a
    some (db2,
      [Event.addInternalTx [internal_tx] a,
       Event.updateRange loc qs t.timestamp])

/-- The `for internal_tx in new_internal_txs` loop; the `Bool` result is
`false` when a by-hash parent fetch raised `RemoteError`. -/
def processInternalTxs (env : Env) (loc : String) (a : Address) (qs : Timestamp) :
    DBEthTx → List EthereumInternalTransaction → DBEthTx × List Event × Bool
  | db, [] => (db, [], true)
  | db, itx :: rest =>
    match processInternalTx env loc a qs db itx with
    | none => (db, [], false)
    | some r1 =>
      let r2 := processInternalTxs env loc a qs r1.1 rest
      (r2.1, r1.2 ++ r2.2.1, r2.2.2)

/-- The `for new_internal_txs in ...get_transactions(...)` loop of
`_get_internal_transactions_for_ranges` with its `len != 0` guard. -/
def processInternalBatches (env : Env) (loc : String) (a : Address) (qs : Timestamp) :
    DBEthTx → List (List EthereumInternalTransaction) → DBEthTx × List Event × Bool
  | db, [] => (db, [], true)
  | db, batch :: rest =>
    if batch.isEmpty then processInternalBatches env loc a qs db rest
    else
      let r1 := processInternalTxs env loc a qs db batch
      if r1.2.2 then
        let r2 := processInternalBatches env loc a qs r1.1 rest
        (r2.1, r1.2.1 ++ r2.2.1, r2.2.2)
      else
        (r1.1, r1.2.1, false)

/-- The gap loop of `_get_internal_transactions_for_ranges`
(transactions.py lines 185-227): on `RemoteError` (from the generator or
from a parent fetch) one error message is emitted and the whole function
returns. -/
def internalGapsLoop (env : Env) (loc : String) (a : Address) :
    DBEthTx → List (Timestamp × Timestamp) → DBEthTx × List Event × List (Timestamp × Timestamp)
  | db, [] => (db, [], [])
  | db, (qs, qe) :: rest =>
    let res := env.etherscan_get_internal_transactions a qs qe
    let r1 := processInternalBatches env loc a qs db res.1
    if r1.2.2 && !res.2 then
      let r2 := internalGapsLoop env loc a r1.1 rest
      (r2.1, Event.fetchRange "txlistinternal" a qs qe :: r1.2.1 ++ r2.2.1, r2.2.2)
    else
      (r1.1, Event.fetchRange "txlistinternal" a qs qe :: r1.2.1 ++ [Event.addError a qs qe], [(qs, qe)])

/-- `_get_internal_transactions_for_ranges` (transactions.py lines
166-232). -/
def get_internal_transactions_for_ranges (env : Env) (db : DBEthTx) (address : Address) (start_ts end_ts : Timestamp) : DBEthTx × List Event :=
  let location := locationOf RANGE_PREFIX_ETHINTERNALTX address
  let ranges_to_query := env.get_location_query_ranges location start_ts end_ts
  let r := internalGapsLoop env location address db ranges_to_query
  if r.2.2.isEmpty then
    (r.1, r.2.1 ++ [Event.updateRange location start_ts end_ts])
  else
    (r.1, r.2.1)

/-- One iteration of the `for tx_hash in erc20_tx_hashes` loop of
`_get_erc20_transfers_for_ranges` (transactions.py lines 259-278);
`deserialize_evm_tx_hash` is the identity on the already-typed hash. -/
def processTokenHash (env : Env) (loc : String) (a : Address) (qs : Timestamp)
    (db : DBEthTx) (tx_hash : EVMTxHash) : Option (DBEthTx × List Event) :=
  match db.get_ethereum_transactions tx_hash with
  | [] =>
    match env.get_transaction_by_hash tx_hash with
    | none => none
    | some transaction =>
      let db1 := db.add_ethereum_transactions [transaction] (some a)
      some (db1,
        [Event.fetchTxByHash tx_hash,
         Event.addTx [transaction] (some a),
         Event.updateRange loc qs transaction.timestamp])
  | t :: _ =>
    some (db, [Event.updateRange loc qs t.timestamp])

/-- The `for tx_hash in erc20_tx_hashes` loop. -/
def processTokenHashes (env : Env) (loc : String) (a : Address) (qs : Timestamp) :
    DBEthTx → List EVMTxHash → DBEthTx × List Event × Bool
  | db, [] => (db, [], true)
  | db, h :: rest =>
    match processTokenHash env loc a qs db h with
    | none => (db, [], false)
    | some r1 =>
      let r2 := processTokenHashes env loc a qs r1.1 rest
      (r2.1, r1.2 ++ r2.2.1, r2.2.2)

/-- The `for erc20_tx_hashes in ...get_token_transaction_hashes(...)`
loop of `_get_erc20_transfers_for_ranges`. -/
def processTokenBatches (env : Env) (loc : String) (a : Address) (qs : Timestamp) :
    DBEthTx → List (List EVMTxHash) → DBEthTx × List Event × Bool
  | db, [] => (db, [], true)
  | db, batch :: rest =>
    let r1 := processTokenHashes env loc a qs db batch
    if r1.2.2 then
      let r2 := processTokenBatches env loc a qs r1.1 rest
      (r2.1, r1.2.1 ++ r2.2.1, r2.2.2)
    else
      (r1.1, r1.2.1, false)

/-- The gap loop of `_get_erc20_transfers_for_ranges` (transactions.py
lines 252-286).  Unlike the other two categories, the except-branch has
no `return`: after emitting the error message the loop continues with
the next gap. -/
def erc20GapsLoop (env : Env) (loc : String) (a : Address) :
    DBEthTx → List (Timestamp × Timestamp) → DBEthTx × List Event × List (Timestamp × Timestamp)
  | db, [] => (db, [], [])
  | db, (qs, qe) :: rest =>
    let res := env.etherscan_get_token_transaction_hashes a qs qe
    let r1 := processTokenBatches env loc a qs db res.1
    if r1.2.2 && !res.2 then
      let r2 := erc20GapsLoop env loc a r1.1 rest
      (r2.1, Event.fetchRange "tokentx" a qs qe :: r1.2.1 ++ r2.2.1, r2.2.2)
    else
      let r2 := erc20GapsLoop env loc a r1.1 rest
      (r2.1, Event.fetchRange "tokentx" a qs qe :: r1.2.1 ++ [Event.addError a qs qe] ++ r2.2.1, (qs, qe) :: r2.2.2)

/-- `_get_erc20_transfers_for_ranges` (transactions.py lines 234-291).
The final full-window `update_used_query_range` runs unconditionally,
because the except-branch does not return. -/
def get_erc20_transfers_for_ranges (env : Env) (db : DBEthTx) (address : Address) (start_ts end_ts : Timestamp) : DBEthTx × List Event :=
  let location := locationOf RANGE_PREFIX_ETHTOKENTX address
  let ranges_to_query := env.get_location_query_ranges location start_ts end_ts
  let r := erc20GapsLoop env location address db ranges_to_query
  (r.1, r.2.1 ++ [Event.updateRange location start_ts end_ts])

/-- `single_address_query_transactions` (transactions.py lines 45-69):
the three category syncs in order. -/
def single_address_query_transactions (env : Env) (db : DBEthTx) (address : Address) (start_ts end_ts : Timestamp) : DBEthTx × List Event :=
  let r1 := get_transactions_for_range env db address start_ts end_ts
  let r2 := get_internal_transactions_for_ranges env r1.1 address start_ts end_ts
  let r3 := get_erc20_transfers_for_ranges env r2.1 address start_ts end_ts
  (r3.1, r1.2 ++ r2.2 ++ r3.2)

/-- The `for address in accounts` loop of `query`. -/
def syncAccounts (env : Env) (from_ts to_ts : Timestamp) :
    DBEthTx → List Address → DBEthTx × List Event
  | db, [] => (db, [])
  | db, a :: rest =>
    let r1 := single_address_query_transactions env db a from_ts to_ts
    let r2 := syncAccounts env from_ts to_ts r1.1 rest
    (r2.1, r1.2 ++ r2.2)

/-- `query` (transactions.py lines 71-111): unless `only_cache`, sync
every requested address (all tracked accounts when the filter names
none) over `[from_ts or 0, to_ts or now]`, then read the store with the
given filter. -/
def query (env : Env) (db : DBEthTx) (filter_query : ETHTransactionsFilterQuery) (has_premium : Bool) (only_cache : Bool) :
    DBEthTx × List Event × (List EthereumTransaction × Nat) :=
  let accounts := match filter_query.addresses with
    | some l => l
    | none => env.blockchain_accounts_eth
  let r :=
    if only_cache = false then
      let from_ts := match filter_query.from_ts with | none => 0 | some t => t
      let to_ts := match filter_query.to_ts with | none => env.ts_now | some t => t
      syncAccounts env from_ts to_ts db accounts
    else
      (db, [])
  (r.1, r.2, DBEthTx.get_ethereum_transactions_and_limit_info r.1 filter_query has_premium)

/-- The receipt phase of `get_or_query_transaction_receipt`
(transactions.py lines 329-337): return the stored receipt if present,
else fetch it, store it, and return the freshly stored row. -/
def receiptPhase (env : Env) (db : DBEthTx) (evs : List Event) (tx_hash : EVMTxHash) :
    Option (DBEthTx × List Event × EthereumTxReceipt) :=
  match db.get_receipt tx_hash with
  | some r => some (db, evs, r)
  | none =>
    match env.get_transaction_receipt tx_hash with
    | none => none
    | some rd =>
      let db2 := db.add_receipt_data rd
      match db2.get_receipt tx_hash with
      | some r => some (db2, evs ++ [Event.fetchReceipt tx_hash, Event.addReceipt rd], r)
      | none => none

/-- `get_or_query_transaction_receipt` (transactions.py lines 293-337);
`none` models a propagated `RemoteError`.  When the transaction row is
absent it is fetched by hash, stored with no relevant address, and a
zero-width internal and token sync is run at its timestamp for its
from-address. -/
def get_or_query_transaction_receipt (env : Env) (db : DBEthTx) (tx_hash : EVMTxHash) :
    Option (DBEthTx × List Event × EthereumTxReceipt) :=
  match db.get_ethereum_transactions tx_hash with
  | [] =>
    match env.get_transaction_by_hash tx_hash with
    | none => none
    | some transaction =>
      let db1 := db.add_ethereum_transactions [transaction] none
      let r2 := get_internal_transactions_for_ranges env db1 transaction.from_address transaction.timestamp transaction.timestamp
      let r3 := get_erc20_transfers_for_ranges env r2.1 transaction.from_address transaction.timestamp transaction.timestamp
      receiptPhase env r3.1
        ([Event.fetchTxByHash tx_hash, Event.addTx [transaction] none] ++ r2.2 ++ r3.2) tx_hash
  | _ :: _ =>
    receiptPhase env db [] tx_hash

end EthTransactions

/-! ## The Uniswap v2 accountant (`accountant.py`) -/

inductive HistoryEventType where
  | trade | spend | receive | withdrawal | deposit
  deriving DecidableEq, Repr

inductive HistoryEventSubType where
  | spend | return_wrapped | receive_wrapped | remove_asset | deposit_asset
  deriving DecidableEq, Repr

inductive TxAccountingTreatment where
  | swap
  deriving DecidableEq, Repr

structure TxEventSettings where
  taxable : Bool
  count_entire_amount_spend : Bool
  count_cost_basis_pnl : Bool
  method : String
  accounting_treatment : Option TxAccountingTreatment := none
  deriving DecidableEq, Repr

abbrev EventTypeIdent := HistoryEventType × HistoryEventSubType × String

/-- Modelled from the spec: `get_event_type_identifier` of
`rotkehlchen/accounting/structures/base.py` (not under `src/`), an
identifier injective in (event type, event subtype, counterparty);
modelled as the tuple itself. -/
def get_event_type_identifier (t : HistoryEventType) (s : HistoryEventSubType) (cpt : String) : EventTypeIdent :=
  (t, s, cpt)

/-- `CPT_UNISWAP_V2` of the uniswap constants module (not under `src/`). -/
def CPT_UNISWAP_V2 : String := "uniswap-v2"

/-- Modelled from the spec: the accounting pot argument
(`rotkehlchen/accounting/pot.py`, not under `src/`); the accountant does
not inspect it. -/
structure AccountingPot where
  data : Nat
  deriving DecidableEq, Repr

namespace Uniswapv2Accountant

/-- `Uniswapv2Accountant.event_settings` (accountant.py lines 15-49);
the python dict is modelled as the association list of its five entries
in source order. -/
def event_settings (pot : AccountingPot) : List (EventTypeIdent × TxEventSettings) :=
  [ (get_event_type_identifier HistoryEventType.trade HistoryEventSubType.spend CPT_UNISWAP_V2,
      { taxable := true,
        count_entire_amount_spend := false,
        count_cost_basis_pnl := true,
        method := "spend",
        accounting_treatment := some TxAccountingTreatment.swap }),
    (get_event_type_identifier HistoryEventType.spend HistoryEventSubType.return_wrapped CPT_UNISWAP_V2,
      { taxable := false,
        count_entire_amount_spend := false,
        count_cost_basis_pnl := true,
        method := "spend" }),
    (get_event_type_identifier HistoryEventType.receive HistoryEventSubType.receive_wrapped CPT_UNISWAP_V2,
      { taxable := false,
        count_entire_amount_spend := false,
        count_cost_basis_pnl := true,
        method := "acquisition" }),
    (get_event_type_identifier HistoryEventType.withdrawal HistoryEventSubType.remove_asset CPT_UNISWAP_V2,
      { taxable := false,
        count_entire_amount_spend := false,
        count_cost_basis_pnl := true,
        method := "acquisition" }),
    (get_event_type_identifier HistoryEventType.deposit HistoryEventSubType.deposit_asset CPT_UNISWAP_V2,
      { taxable := false,
        count_entire_amount_spend := false,
        count_cost_basis_pnl := true,
        method := "spend" }) ]

end Uniswapv2Accountant

/-! ## Trace observations -/

/-- The end timestamps of the `update_used_query_range` calls for a
given location, in emission order. -/
def rangeEnds (loc : String) (evs : List Event) : List Timestamp :=
  evs.filterMap fun e =>
    match e with
    | Event.updateRange l _ en => if l = loc then some en else none
    | _ => none

/-- The error messages sent to the msg_aggregator, in emission order. -/
def addErrorEvents (evs : List Event) : List Event :=
  evs.filter fun e =>
    match e with
    | Event.addError _ _ _ => true
    | _ => false

/-- The store writes of transaction rows in the trace: the written rows
together with the relevant address they were stored under. -/
def addTxEvents (evs : List Event) : List (List EthereumTransaction × Option Address) :=
  evs.filterMap fun e =>
    match e with
    | Event.addTx txs ra => some (txs, ra)
    | _ => none

/-- The remote source answers a by-hash transaction fetch with a
transaction of that hash (the contract of
`EthereumManager.get_transaction_by_hash`). -/
def envHashConsistent (env : Env) : Prop :=
  ∀ h t, env.get_transaction_by_hash h = some t → t.tx_hash = h

/-- The parent timestamp the dependent categories use for a record with
parent hash `h` against store `db` (transactions.py lines 196-208 and
261-273): the stored parent row's timestamp when a row exists, otherwise
the freshly fetched transaction's timestamp; `none` when the parent is
absent and the by-hash fetch raises `RemoteError`. -/
def parentTimestamp (env : Env) (db : DBEthTx) (h : EVMTxHash) : Option Timestamp :=
  match db.get_ethereum_transactions h with
  | [] => (env.get_transaction_by_hash h).map (fun t => t.timestamp)
  | t :: _ => some t.timestamp

/-- The windows of the range fetches (`etherscan.get_transactions` /
`get_token_transaction_hashes` calls) in the trace, in emission order. -/
def fetchWindows (evs : List Event) : List (Timestamp × Timestamp) :=
  evs.filterMap fun e =>
    match e with
    | Event.fetchRange _ _ f t => some (f, t)
    | _ => none

/-- Every internal-transaction row of the store has its parent
transaction row in the store. -/
def parentsPresent (db : DBEthTx) : Prop :=
  ∀ p ∈ db.internal_txs, ∃ q ∈ db.ethereum_txs, q.1.tx_hash = p.1.parent_tx_hash

/-! ## Concrete instances used by counterexamples and witnesses -/

def dbEmpty : DBEthTx := { ethereum_txs := [], internal_txs := [], receipts := [] }

/-- An environment whose token-transfer source raises `RemoteError`
immediately on the first gap `(0, 10)` and succeeds (empty) on the
second gap `(20, 30)`. -/
def envTokenErr : Env :=
  { etherscan_get_transactions := fun _ _ _ => ([], false)
    etherscan_get_internal_transactions := fun _ _ _ => ([], false)
    etherscan_get_token_transaction_hashes := fun _ f _ => if f = 0 then ([], true) else ([], false)
    get_transaction_by_hash := fun _ => none
    get_transaction_receipt := fun _ => none
    get_location_query_ranges := fun _ _ _ => [(0, 10), (20, 30)]
    blockchain_accounts_eth := []
    ts_now := 100 }

/-- An environment whose base-transaction source yields, for the single
gap `(0, 100)`, a batch whose last record has timestamp 90 followed by a
batch whose last record has timestamp 10. -/
def envDescending : Env :=
  { etherscan_get_transactions := fun _ _ _ =>
      ([[{ tx_hash := 1, timestamp := 90, from_address := 7 }],
        [{ tx_hash := 2, timestamp := 10, from_address := 7 }]], false)
    etherscan_get_internal_transactions := fun _ _ _ => ([], false)
    etherscan_get_token_transaction_hashes := fun _ _ _ => ([], false)
    get_transaction_by_hash := fun _ => none
    get_transaction_receipt := fun _ => none
    get_location_query_ranges := fun _ _ _ => [(0, 100)]
    blockchain_accounts_eth := []
    ts_now := 100 }

/-- A base transaction used by concrete runs. -/
def txA : EthereumTransaction := { tx_hash := 42, timestamp := 10, from_address := 5 }

/-- A receipt for `txA`. -/
def rcA : EthereumTxReceipt := { tx_hash := 42, data := 1 }

def dbWithTxAndReceipt : DBEthTx :=
  { ethereum_txs := [(txA, none)], internal_txs := [], receipts := [rcA] }

def dbWithTx : DBEthTx :=
  { ethereum_txs := [(txA, none)], internal_txs := [], receipts := [] }

/-- An environment with one gap `(0, 50)` per category, one base
transaction, one internal transaction whose parent (hash 77) is only
available by hash, and one token transfer whose parent (hash 88) is only
available by hash. -/
def envRich : Env :=
  { etherscan_get_transactions := fun _ _ _ =>
      ([[{ tx_hash := 9, timestamp := 15, from_address := 5 }]], false)
    etherscan_get_internal_transactions := fun _ _ _ =>
      ([[{ parent_tx_hash := 77, trace_id := 0, timestamp := 40 }]], false)
    etherscan_get_token_transaction_hashes := fun _ _ _ => ([[88]], false)
    get_transaction_by_hash := fun h =>
      if h = 77 then some { tx_hash := 77, timestamp := 35, from_address := 5 }
      else if h = 88 then some { tx_hash := 88, timestamp := 20, from_address := 5 }
      else if h = 42 then some txA
      else none
    get_transaction_receipt := fun h => if h = 42 then some rcA else none
    get_location_query_ranges := fun _ s e => [(s, e)]
    blockchain_accounts_eth := [5]
    ts_now := 100 }

/-- An environment for the receipt read-through runs: the by-hash fetch
knows `txA` and the receipt source knows `rcA`; the gap oracle reports
full coverage (no gaps), so the zero-width dependent syncs fetch
nothing. -/
def envReceipt : Env :=
  { etherscan_get_transactions := fun _ _ _ => ([], false)
    etherscan_get_internal_transactions := fun _ _ _ => ([], false)
    etherscan_get_token_transaction_hashes := fun _ _ _ => ([], false)
    get_transaction_by_hash := fun h => if h = 42 then some txA else none
    get_transaction_receipt := fun h => if h = 42 then some rcA else none
    get_location_query_ranges := fun _ _ _ => []
    blockchain_accounts_eth := [5]
    ts_now := 100 }

/-! ## Theorems -/

/-! Small rewriting lemmas for the trace observers. -/

@[simp] theorem rangeEnds_nil (loc : String) : rangeEnds loc [] = [] := rfl

@[simp] theorem rangeEnds_append (loc : String) (l1 l2 : List Event) :
    rangeEnds loc (l1 ++ l2) = rangeEnds loc l1 ++ rangeEnds loc l2 := by
  simp [rangeEnds]

@[simp] theorem rangeEnds_fetchRange (loc act : String) (a : Address) (f t : Timestamp) (evs : List Event) :
    rangeEnds loc (Event.fetchRange act a f t :: evs) = rangeEnds loc evs := rfl

@[simp] theorem rangeEnds_fetchTxByHash (loc : String) (h : EVMTxHash) (evs : List Event) :
    rangeEnds loc (Event.fetchTxByHash h :: evs) = rangeEnds loc evs := rfl

@[simp] theorem rangeEnds_fetchReceipt (loc : String) (h : EVMTxHash) (evs : List Event) :
    rangeEnds loc (Event.fetchReceipt h :: evs) = rangeEnds loc evs := rfl

@[simp] theorem rangeEnds_addTx (loc : String) (txs : List EthereumTransaction) (ra : Option Address) (evs : List Event) :
    rangeEnds loc (Event.addTx txs ra :: evs) = rangeEnds loc evs := rfl

@[simp] theorem rangeEnds_addInternalTx (loc : String) (txs : List EthereumInternalTransaction) (ra : Address) (evs : List Event) :
    rangeEnds loc (Event.addInternalTx txs ra :: evs) = rangeEnds loc evs := rfl

@[simp] theorem rangeEnds_addReceipt (loc : String) (r : EthereumTxReceipt) (evs : List Event) :
    rangeEnds loc (Event.addReceipt r :: evs) = rangeEnds loc evs := rfl

@[simp] theorem rangeEnds_addError (loc : String) (a : Address) (f t : Timestamp) (evs : List Event) :
    rangeEnds loc (Event.addError a f t :: evs) = rangeEnds loc evs := rfl

@[simp] theorem rangeEnds_updateRange (loc l : String) (s en : Timestamp) (evs : List Event) :
    rangeEnds loc (Event.updateRange l s en :: evs) =
      if l = loc then en :: rangeEnds loc evs else rangeEnds loc evs := by
  by_cases h : l = loc <;> simp [rangeEnds, List.filterMap_cons, h]

@[simp] theorem addErrorEvents_nil : addErrorEvents [] = [] := rfl

@[simp] theorem addErrorEvents_append (l1 l2 : List Event) :
    addErrorEvents (l1 ++ l2) = addErrorEvents l1 ++ addErrorEvents l2 := by
  simp [addErrorEvents]

@[simp] theorem addErrorEvents_fetchRange (act : String) (a : Address) (f t : Timestamp) (evs : List Event) :
    addErrorEvents (Event.fetchRange act a f t :: evs) = addErrorEvents evs := rfl

@[simp] theorem addErrorEvents_fetchTxByHash (h : EVMTxHash) (evs : List Event) :
    addErrorEvents (Event.fetchTxByHash h :: evs) = addErrorEvents evs := rfl

@[simp] theorem addErrorEvents_fetchReceipt (h : EVMTxHash) (evs : List Event) :
    addErrorEvents (Event.fetchReceipt h :: evs) = addErrorEvents evs := rfl

@[simp] theorem addErrorEvents_addTx (txs : List EthereumTransaction) (ra : Option Address) (evs : List Event) :
    addErrorEvents (Event.addTx txs ra :: evs) = addErrorEvents evs := rfl

@[simp] theorem addErrorEvents_addInternalTx (txs : List EthereumInternalTransaction) (ra : Address) (evs : List Event) :
    addErrorEvents (Event.addInternalTx txs ra :: evs) = addErrorEvents evs := rfl

@[simp] theorem addErrorEvents_addReceipt (r : EthereumTxReceipt) (evs : List Event) :
    addErrorEvents (Event.addReceipt r :: evs) = addErrorEvents evs := rfl

@[simp] theorem addErrorEvents_updateRange (l : String) (s en : Timestamp) (evs : List Event) :
    addErrorEvents (Event.updateRange l s en :: evs) = addErrorEvents evs := rfl

@[simp] theorem addErrorEvents_addError (a : Address) (f t : Timestamp) (evs : List Event) :
    addErrorEvents (Event.addError a f t :: evs) = Event.addError a f t :: addErrorEvents evs := rfl

/-- C10: `Uniswapv2Accountant.event_settings` is deterministic in its
pot argument and always returns a mapping of exactly five event-type
identifiers, all with `count_entire_amount_spend` false and
`count_cost_basis_pnl` true, in which the (TRADE, SPEND) entry is the
only taxable one and the only one with accounting treatment SWAP. -/
theorem uniswap_v2_event_settings_spec :
    ∀ pot pot' : AccountingPot,
      Uniswapv2Accountant.event_settings pot = Uniswapv2Accountant.event_settings pot'
      ∧ (Uniswapv2Accountant.event_settings pot).length = 5
      ∧ ((Uniswapv2Accountant.event_settings pot).map Prod.fst).Nodup
      ∧ ∀ e ∈ Uniswapv2Accountant.event_settings pot,
          e.2.count_entire_amount_spend = false
          ∧ e.2.count_cost_basis_pnl = true
          ∧ (e.2.taxable = true ↔
              e.1 = (HistoryEventType.trade, HistoryEventSubType.spend, CPT_UNISWAP_V2))
          ∧ (e.2.accounting_treatment = some TxAccountingTreatment.swap ↔
              e.1 = (HistoryEventType.trade, HistoryEventSubType.spend, CPT_UNISWAP_V2)) := by
  intro pot pot'
  have h : Uniswapv2Accountant.event_settings pot =
      Uniswapv2Accountant.event_settings { data := 0 } := rfl
  rw [h]
  refine ⟨rfl, rfl, by decide, by decide⟩

/-- C5: in the base-transaction sync, the per-gap batch loop stores each
non-empty batch and then marks `(query_start_ts, last record timestamp)`
queried — never `(query_start_ts, query_end_ts)` — while an empty batch
is neither stored nor marks anything. -/
theorem tx_batches_store_then_mark (loc : String) (a : Address) (qs : Timestamp) :
    ∀ (batches : List (List EthereumTransaction)) (db : DBEthTx),
      (EthTransactions.processTxBatches loc a qs db batches).2 =
        (batches.map fun b =>
          if b.isEmpty then []
          else [Event.addTx b (some a), Event.updateRange loc qs (lastTimestamp b)]).flatten := by
  intro batches
  induction batches with
  | nil => intro db; rfl
  | cons b rest ih =>
    intro db
    by_cases hb : b.isEmpty
    · have hb' : b = [] := List.isEmpty_iff.mp hb
      subst hb'
      simp [EthTransactions.processTxBatches, ih]
    · have hb' : b ≠ [] := by simpa [List.isEmpty_iff] using hb
      simp [EthTransactions.processTxBatches, hb, hb', ih]

/-- C1 (the code diverges here): with token gaps `[(0,10), (20,30)]` and
a remote error raised while processing the first gap, the token-transfer
sync does not return: it proceeds to the second gap and still issues the
final full-window `update_used_query_range (0, 30)` — the except-branch
of `_get_erc20_transfers_for_ranges` lacks the `return` that the base
and internal syncs have. -/
theorem erc20_error_does_not_abort :
    EthTransactions.get_erc20_transfers_for_ranges envTokenErr dbEmpty 5 0 30 =
      (dbEmpty,
        [Event.fetchRange "tokentx" 5 0 10,
         Event.addError 5 0 10,
         Event.fetchRange "tokentx" 5 20 30,
         Event.updateRange (locationOf RANGE_PREFIX_ETHTOKENTX 5) 0 30]) := by
  rfl

/-- C2 fails as stated: with the single base gap `(0, 100)` and a remote
yielding a batch ending at timestamp 90 followed by a batch ending at
timestamp 10, the engine issues `update_used_query_range` end timestamps
`[90, 10, 100]` for the key — a later call carries a smaller end than an
earlier one. -/
theorem range_end_order_counterexample :
    rangeEnds (locationOf RANGE_PREFIX_ETHTX 7)
        (EthTransactions.get_transactions_for_range envDescending dbEmpty 7 0 100).2 =
      [90, 10, 100]
    ∧ ¬ (90 : Timestamp) ≤ 10 := by
  exact ⟨by decide, by decide⟩

/-- Within one gap of the base sync, the `update_used_query_range` end
timestamps are exactly the last-record timestamps of the non-empty
batches, in the order the remote yields them. -/
theorem tx_batch_range_ends_follow_remote (loc : String) (a : Address) (qs : Timestamp) :
    ∀ (batches : List (List EthereumTransaction)) (db : DBEthTx),
      rangeEnds loc (EthTransactions.processTxBatches loc a qs db batches).2 =
        (batches.filter fun b => !b.isEmpty).map lastTimestamp := by
  intro batches
  induction batches with
  | nil => intro db; rfl
  | cons b rest ih =>
    intro db
    by_cases hb : b.isEmpty
    · have hb' : b = [] := List.isEmpty_iff.mp hb
      subst hb'
      simpa [EthTransactions.processTxBatches] using ih db
    · simp only [EthTransactions.processTxBatches, if_neg hb]
      simp [hb, ih]

/-! Lemmas about `fetchWindows`. -/

@[simp] theorem fetchWindows_nil : fetchWindows [] = [] := rfl

@[simp] theorem fetchWindows_append (l1 l2 : List Event) :
    fetchWindows (l1 ++ l2) = fetchWindows l1 ++ fetchWindows l2 := by
  simp [fetchWindows]

@[simp] theorem fetchWindows_fetchRange (act : String) (a : Address) (f t : Timestamp) (evs : List Event) :
    fetchWindows (Event.fetchRange act a f t :: evs) = (f, t) :: fetchWindows evs := rfl

@[simp] theorem fetchWindows_fetchTxByHash (h : EVMTxHash) (evs : List Event) :
    fetchWindows (Event.fetchTxByHash h :: evs) = fetchWindows evs := rfl

@[simp] theorem fetchWindows_fetchReceipt (h : EVMTxHash) (evs : List Event) :
    fetchWindows (Event.fetchReceipt h :: evs) = fetchWindows evs := rfl

@[simp] theorem fetchWindows_addTx (txs : List EthereumTransaction) (ra : Option Address) (evs : List Event) :
    fetchWindows (Event.addTx txs ra :: evs) = fetchWindows evs := rfl

@[simp] theorem fetchWindows_addInternalTx (txs : List EthereumInternalTransaction) (ra : Address) (evs : List Event) :
    fetchWindows (Event.addInternalTx txs ra :: evs) = fetchWindows evs := rfl

@[simp] theorem fetchWindows_addReceipt (r : EthereumTxReceipt) (evs : List Event) :
    fetchWindows (Event.addReceipt r :: evs) = fetchWindows evs := rfl

@[simp] theorem fetchWindows_updateRange (l : String) (s en : Timestamp) (evs : List Event) :
    fetchWindows (Event.updateRange l s en :: evs) = fetchWindows evs := rfl

@[simp] theorem fetchWindows_addError (a : Address) (f t : Timestamp) (evs : List Event) :
    fetchWindows (Event.addError a f t :: evs) = fetchWindows evs := rfl

theorem fetchWindows_processTxBatches (loc : String) (a : Address) (qs : Timestamp) :
    ∀ (batches : List (List EthereumTransaction)) (db : DBEthTx),
      fetchWindows (EthTransactions.processTxBatches loc a qs db batches).2 = [] := by
  intro batches
  induction batches with
  | nil => intro db; rfl
  | cons b rest ih =>
    intro db
    by_cases hb : b.isEmpty
    · simpa [EthTransactions.processTxBatches, hb] using ih db
    · simp [EthTransactions.processTxBatches, hb, ih]

theorem fetchWindows_processInternalTx (env : Env) (loc : String) (a : Address) (qs : Timestamp)
    (db : DBEthTx) (itx : EthereumInternalTransaction) :
    fetchWindows ((EthTransactions.processInternalTx env loc a qs db itx).elim []
      (fun r => r.2)) = [] := by
  rcases hl : db.get_ethereum_transactions itx.parent_tx_hash with _ | ⟨t, ts⟩
  · rcases hf : env.get_transaction_by_hash itx.parent_tx_hash with _ | t
    · simp [EthTransactions.processInternalTx, hl, hf]
    · simp [EthTransactions.processInternalTx, hl, hf, fetchWindows]
  · simp [EthTransactions.processInternalTx, hl, fetchWindows]

theorem fetchWindows_processInternalTxs (env : Env) (loc : String) (a : Address) (qs : Timestamp) :
    ∀ (records : List EthereumInternalTransaction) (db : DBEthTx),
      fetchWindows (EthTransactions.processInternalTxs env loc a qs db records).2.1 = [] := by
  intro records
  induction records with
  | nil => intro db; rfl
  | cons itx rest ih =>
    intro db
    have h1 := fetchWindows_processInternalTx env loc a qs db itx
    rcases hp : EthTransactions.processInternalTx env loc a qs db itx with _ | ⟨db1, evs1⟩
    · simp [EthTransactions.processInternalTxs, hp]
    · rw [hp] at h1
      simp only [Option.elim] at h1
      simp [EthTransactions.processInternalTxs, hp, h1, ih]

theorem fetchWindows_processInternalBatches (env : Env) (loc : String) (a : Address) (qs : Timestamp) :
    ∀ (batches : List (List EthereumInternalTransaction)) (db : DBEthTx),
      fetchWindows (EthTransactions.processInternalBatches env loc a qs db batches).2.1 = [] := by
  intro batches
  induction batches with
  | nil => intro db; rfl
  | cons b rest ih =>
    intro db
    by_cases hb : b.isEmpty
    · simpa [EthTransactions.processInternalBatches, hb] using ih db
    · by_cases hok : (EthTransactions.processInternalTxs env loc a qs db b).2.2
      · simp [EthTransactions.processInternalBatches, hb, hok,
          fetchWindows_processInternalTxs, ih]
      · simp [EthTransactions.processInternalBatches, hb, hok,
          fetchWindows_processInternalTxs]

theorem fetchWindows_processTokenHash (env : Env) (loc : String) (a : Address) (qs : Timestamp)
    (db : DBEthTx) (h : EVMTxHash) :
    fetchWindows ((EthTransactions.processTokenHash env loc a qs db h).elim []
      (fun r => r.2)) = [] := by
  rcases hl : db.get_ethereum_transactions h with _ | ⟨t, ts⟩
  · rcases hf : env.get_transaction_by_hash h with _ | t
    · simp [EthTransactions.processTokenHash, hl, hf]
    · simp [EthTransactions.processTokenHash, hl, hf, fetchWindows]
  · simp [EthTransactions.processTokenHash, hl, fetchWindows]

theorem fetchWindows_processTokenHashes (env : Env) (loc : String) (a : Address) (qs : Timestamp) :
    ∀ (hashes : List EVMTxHash) (db : DBEthTx),
      fetchWindows (EthTransactions.processTokenHashes env loc a qs db hashes).2.1 = [] := by
  intro hashes
  induction hashes with
  | nil => intro db; rfl
  | cons h rest ih =>
    intro db
    have h1 := fetchWindows_processTokenHash env loc a qs db h
    rcases hp : EthTransactions.processTokenHash env loc a qs db h with _ | ⟨db1, evs1⟩
    · simp [EthTransactions.processTokenHashes, hp]
    · rw [hp] at h1
      simp only [Option.elim] at h1
      simp [EthTransactions.processTokenHashes, hp, h1, ih]

theorem fetchWindows_processTokenBatches (env : Env) (loc : String) (a : Address) (qs : Timestamp) :
    ∀ (batches : List (List EVMTxHash)) (db : DBEthTx),
      fetchWindows (EthTransactions.processTokenBatches env loc a qs db batches).2.1 = [] := by
  intro batches
  induction batches with
  | nil => intro db; rfl
  | cons b rest ih =>
    intro db
    by_cases hok : (EthTransactions.processTokenHashes env loc a qs db b).2.2
    · simp [EthTransactions.processTokenBatches, hok,
        fetchWindows_processTokenHashes, ih]
    · simp [EthTransactions.processTokenBatches, hok,
        fetchWindows_processTokenHashes]

theorem fetchWindows_txGapsLoop (env : Env) (loc : String) (a : Address) :
    ∀ (gaps : List (Timestamp × Timestamp)) (db : DBEthTx),
      ∃ n, fetchWindows (EthTransactions.txGapsLoop env loc a db gaps).2.1 = gaps.take n := by
  intro gaps
  induction gaps with
  | nil => intro db; exact ⟨0, rfl⟩
  | cons g rest ih =>
    intro db
    obtain ⟨qs, qe⟩ := g
    by_cases herr : (env.etherscan_get_transactions a qs qe).2
    · exact ⟨1, by simp [EthTransactions.txGapsLoop, herr, fetchWindows_processTxBatches]⟩
    · obtain ⟨n, hn⟩ := ih (EthTransactions.processTxBatches loc a qs db
        (env.etherscan_get_transactions a qs qe).1).1
      exact ⟨n + 1, by simp [EthTransactions.txGapsLoop, herr,
        fetchWindows_processTxBatches, hn]⟩

theorem fetchWindows_internalGapsLoop (env : Env) (loc : String) (a : Address) :
    ∀ (gaps : List (Timestamp × Timestamp)) (db : DBEthTx),
      ∃ n, fetchWindows (EthTransactions.internalGapsLoop env loc a db gaps).2.1 = gaps.take n := by
  intro gaps
  induction gaps with
  | nil => intro db; exact ⟨0, rfl⟩
  | cons g rest ih =>
    intro db
    obtain ⟨qs, qe⟩ := g
    by_cases hc : (EthTransactions.processInternalBatches env loc a qs db
        (env.etherscan_get_internal_transactions a qs qe).1).2.2
        && !(env.etherscan_get_internal_transactions a qs qe).2
    · obtain ⟨n, hn⟩ := ih (EthTransactions.processInternalBatches env loc a qs db
        (env.etherscan_get_internal_transactions a qs qe).1).1
      exact ⟨n + 1, by simp [EthTransactions.internalGapsLoop, hc,
        fetchWindows_processInternalBatches, hn]⟩
    · exact ⟨1, by simp [EthTransactions.internalGapsLoop, hc,
        fetchWindows_processInternalBatches]⟩

theorem fetchWindows_erc20GapsLoop (env : Env) (loc : String) (a : Address) :
    ∀ (gaps : List (Timestamp × Timestamp)) (db : DBEthTx),
      fetchWindows (EthTransactions.erc20GapsLoop env loc a db gaps).2.1 = gaps := by
  intro gaps
  induction gaps with
  | nil => intro db; rfl
  | cons g rest ih =>
    intro db
    obtain ⟨qs, qe⟩ := g
    by_cases hc : (EthTransactions.processTokenBatches env loc a qs db
        (env.etherscan_get_token_transaction_hashes a qs qe).1).2.2
        && !(env.etherscan_get_token_transaction_hashes a qs qe).2
    · simp [EthTransactions.erc20GapsLoop, hc, fetchWindows_processTokenBatches, ih]
    · simp [EthTransactions.erc20GapsLoop, hc, fetchWindows_processTokenBatches, ih]

/-- C2 amended: within one gap of a category sync, the
`update_used_query_range` end timestamps follow the remote-supplied data
in processing order — for the base category exactly one call per
non-empty batch with end the batch's last record timestamp; for the
internal and token categories exactly one call per successfully
processed record or hash with end the parent transaction's timestamp
(the stored parent row's if present, otherwise the freshly fetched
transaction's), issued even when nothing new is stored — and the gap
windows of a category sync are fetched in exactly the order the range
tracker returns them (a prefix up to the first failure for the base and
internal categories, all of them for the token category).  The engine
does not enforce ascending ends, so a later call can carry a smaller end
than an earlier call's (see the counterexample). -/
theorem range_ends_follow_remote_order :
    ∀ (env : Env) (loc : String) (a : Address) (qs : Timestamp) (db : DBEthTx)
      (batches : List (List EthereumTransaction))
      (itx : EthereumInternalTransaction) (irest : List EthereumInternalTransaction)
      (txh : EVMTxHash) (hrest : List EVMTxHash) (s e : Timestamp),
      rangeEnds loc (EthTransactions.processTxBatches loc a qs db batches).2 =
        (batches.filter fun b => !b.isEmpty).map lastTimestamp
      ∧ rangeEnds loc (EthTransactions.processInternalTxs env loc a qs db []).2.1 = []
      ∧ rangeEnds loc (EthTransactions.processInternalTxs env loc a qs db (itx :: irest)).2.1 =
          (match parentTimestamp env db itx.parent_tx_hash with
            | none => []
            | some ts => ts :: rangeEnds loc (EthTransactions.processInternalTxs env loc a qs
                ((EthTransactions.processInternalTx env loc a qs db itx).elim db
                  (fun r => r.1)) irest).2.1)
      ∧ rangeEnds loc (EthTransactions.processTokenHashes env loc a qs db []).2.1 = []
      ∧ rangeEnds loc (EthTransactions.processTokenHashes env loc a qs db (txh :: hrest)).2.1 =
          (match parentTimestamp env db txh with
            | none => []
            | some ts => ts :: rangeEnds loc (EthTransactions.processTokenHashes env loc a qs
                ((EthTransactions.processTokenHash env loc a qs db txh).elim db
                  (fun r => r.1)) hrest).2.1)
      ∧ (∃ n, fetchWindows (EthTransactions.get_transactions_for_range env db a s e).2 =
          (env.get_location_query_ranges (locationOf RANGE_PREFIX_ETHTX a) s e).take n)
      ∧ (∃ n, fetchWindows (EthTransactions.get_internal_transactions_for_ranges env db a s e).2 =
          (env.get_location_query_ranges (locationOf RANGE_PREFIX_ETHINTERNALTX a) s e).take n)
      ∧ fetchWindows (EthTransactions.get_erc20_transfers_for_ranges env db a s e).2 =
          env.get_location_query_ranges (locationOf RANGE_PREFIX_ETHTOKENTX a) s e := by
  intro env loc a qs db batches itx irest txh hrest s e
  refine ⟨tx_batch_range_ends_follow_remote loc a qs batches db, rfl, ?_, rfl, ?_, ?_, ?_, ?_⟩
  · rcases hl : db.get_ethereum_transactions itx.parent_tx_hash with _ | ⟨t, ts0⟩
    · rcases hf : env.get_transaction_by_hash itx.parent_tx_hash with _ | tr
      · have hp : EthTransactions.processInternalTx env loc a qs db itx = none := by
          simp [EthTransactions.processInternalTx, hl, hf]
        simp [EthTransactions.processInternalTxs, hp, parentTimestamp, hl, hf]
      · have hp : EthTransactions.processInternalTx env loc a qs db itx =
            some ((db.add_ethereum_transactions [tr] (some a)).add_ethereum_internal_transactions
                [itx] a,
              [Event.fetchTxByHash itx.parent_tx_hash, Event.addTx [tr] (some a),
               Event.addInternalTx [itx] a, Event.updateRange loc qs tr.timestamp]) := by
          simp [EthTransactions.processInternalTx, hl, hf]
        simp [EthTransactions.processInternalTxs, hp, parentTimestamp, hl, hf]
    · have hp : EthTransactions.processInternalTx env loc a qs db itx =
          some (db.add_ethereum_internal_transactions [itx] a,
            [Event.addInternalTx [itx] a, Event.updateRange loc qs t.timestamp]) := by
        simp [EthTransactions.processInternalTx, hl]
      simp [EthTransactions.processInternalTxs, hp, parentTimestamp, hl]
  · rcases hl : db.get_ethereum_transactions txh with _ | ⟨t, ts0⟩
    · rcases hf : env.get_transaction_by_hash txh with _ | tr
      · have hp : EthTransactions.processTokenHash env loc a qs db txh = none := by
          simp [EthTransactions.processTokenHash, hl, hf]
        simp [EthTransactions.processTokenHashes, hp, parentTimestamp, hl, hf]
      · have hp : EthTransactions.processTokenHash env loc a qs db txh =
            some (db.add_ethereum_transactions [tr] (some a),
              [Event.fetchTxByHash txh, Event.addTx [tr] (some a),
               Event.updateRange loc qs tr.timestamp]) := by
          simp [EthTransactions.processTokenHash, hl, hf]
        simp [EthTransactions.processTokenHashes, hp, parentTimestamp, hl, hf]
    · have hp : EthTransactions.processTokenHash env loc a qs db txh =
          some (db, [Event.updateRange loc qs t.timestamp]) := by
        simp [EthTransactions.processTokenHash, hl]
      simp [EthTransactions.processTokenHashes, hp, parentTimestamp, hl]
  · obtain ⟨n, hn⟩ := fetchWindows_txGapsLoop env (locationOf RANGE_PREFIX_ETHTX a) a
      (env.get_location_query_ranges (locationOf RANGE_PREFIX_ETHTX a) s e) db
    refine ⟨n, ?_⟩
    by_cases hc : ((EthTransactions.txGapsLoop env (locationOf RANGE_PREFIX_ETHTX a) a db
        (env.get_location_query_ranges (locationOf RANGE_PREFIX_ETHTX a) s e)).2.2).isEmpty <;>
      simp [EthTransactions.get_transactions_for_range, hc, hn]
  · obtain ⟨n, hn⟩ := fetchWindows_internalGapsLoop env (locationOf RANGE_PREFIX_ETHINTERNALTX a) a
      (env.get_location_query_ranges (locationOf RANGE_PREFIX_ETHINTERNALTX a) s e) db
    refine ⟨n, ?_⟩
    by_cases hc : ((EthTransactions.internalGapsLoop env (locationOf RANGE_PREFIX_ETHINTERNALTX a) a db
        (env.get_location_query_ranges (locationOf RANGE_PREFIX_ETHINTERNALTX a) s e)).2.2).isEmpty <;>
      simp [EthTransactions.get_internal_transactions_for_ranges, hc, hn]
  · simp [EthTransactions.get_erc20_transfers_for_ranges, fetchWindows_erc20GapsLoop]

/-- C8: with `only_cache` set, `query` performs no sync at all — no
remote fetch, no store write, no query-range update (the event trace is
empty and the store is unchanged) — and returns the store read with the
given filter; with `only_cache` unset it first syncs every address of
the filter (or every tracked account when the filter names none) over
`[from_ts or 0, to_ts or now]` and then reads. -/
theorem query_only_cache_frame :
    ∀ (env : Env) (db : DBEthTx) (f : ETHTransactionsFilterQuery) (hp : Bool),
      EthTransactions.query env db f hp true =
        (db, [], DBEthTx.get_ethereum_transactions_and_limit_info db f hp)
      ∧ EthTransactions.query env db f hp false =
          (let accounts := match f.addresses with
            | some l => l
            | none => env.blockchain_accounts_eth
          let r := EthTransactions.syncAccounts env
              (match f.from_ts with | none => 0 | some t => t)
              (match f.to_ts with | none => env.ts_now | some t => t) db accounts
          (r.1, r.2, DBEthTx.get_ethereum_transactions_and_limit_info r.1 f hp)) := by
  intro env db f hp
  exact ⟨rfl, rfl⟩

/-- C6: whenever a category's gap loop completes with no remote error,
the category sync closes with exactly one `update_used_query_range` for
the full originally requested window `(start_ts, end_ts)` as its last
action; for the token category this happens unconditionally. -/
theorem full_window_closed_on_success :
    ∀ (env : Env) (db : DBEthTx) (a : Address) (s e : Timestamp),
      ((EthTransactions.txGapsLoop env (locationOf RANGE_PREFIX_ETHTX a) a db
          (env.get_location_query_ranges (locationOf RANGE_PREFIX_ETHTX a) s e)).2.2 = [] →
        ∃ pre, (EthTransactions.get_transactions_for_range env db a s e).2 =
          pre ++ [Event.updateRange (locationOf RANGE_PREFIX_ETHTX a) s e])
      ∧ ((EthTransactions.internalGapsLoop env (locationOf RANGE_PREFIX_ETHINTERNALTX a) a db
          (env.get_location_query_ranges (locationOf RANGE_PREFIX_ETHINTERNALTX a) s e)).2.2 = [] →
        ∃ pre, (EthTransactions.get_internal_transactions_for_ranges env db a s e).2 =
          pre ++ [Event.updateRange (locationOf RANGE_PREFIX_ETHINTERNALTX a) s e])
      ∧ (∃ pre, (EthTransactions.get_erc20_transfers_for_ranges env db a s e).2 =
          pre ++ [Event.updateRange (locationOf RANGE_PREFIX_ETHTOKENTX a) s e]) := by
  intro env db a s e
  refine ⟨?_, ?_, ?_⟩
  · intro h
    refine ⟨(EthTransactions.txGapsLoop env (locationOf RANGE_PREFIX_ETHTX a) a db
        (env.get_location_query_ranges (locationOf RANGE_PREFIX_ETHTX a) s e)).2.1, ?_⟩
    simp [EthTransactions.get_transactions_for_range, h]
  · intro h
    refine ⟨(EthTransactions.internalGapsLoop env (locationOf RANGE_PREFIX_ETHINTERNALTX a) a db
        (env.get_location_query_ranges (locationOf RANGE_PREFIX_ETHINTERNALTX a) s e)).2.1, ?_⟩
    simp [EthTransactions.get_internal_transactions_for_ranges, h]
  · exact ⟨(EthTransactions.erc20GapsLoop env (locationOf RANGE_PREFIX_ETHTOKENTX a) a db
        (env.get_location_query_ranges (locationOf RANGE_PREFIX_ETHTOKENTX a) s e)).2.1, rfl⟩

/-- Witness for C6 at a concrete input: all gaps of the base and
internal categories of `envTokenErr` succeed, and each category closes
its full window `(0, 30)`. -/
theorem full_window_closed_on_success_witness :
    (∃ pre, (EthTransactions.get_transactions_for_range envTokenErr dbEmpty 5 0 30).2 =
        pre ++ [Event.updateRange (locationOf RANGE_PREFIX_ETHTX 5) 0 30])
    ∧ (∃ pre, (EthTransactions.get_internal_transactions_for_ranges envTokenErr dbEmpty 5 0 30).2 =
        pre ++ [Event.updateRange (locationOf RANGE_PREFIX_ETHINTERNALTX 5) 0 30])
    ∧ (∃ pre, (EthTransactions.get_erc20_transfers_for_ranges envTokenErr dbEmpty 5 0 30).2 =
        pre ++ [Event.updateRange (locationOf RANGE_PREFIX_ETHTOKENTX 5) 0 30]) := by
  have T := full_window_closed_on_success envTokenErr dbEmpty 5 0 30
  exact ⟨T.1 (by decide), T.2.1 (by decide), T.2.2⟩

/-! Error-reporting characterization lemmas. -/

theorem addErrorEvents_processTxBatches (loc : String) (a : Address) (qs : Timestamp) :
    ∀ (batches : List (List EthereumTransaction)) (db : DBEthTx),
      addErrorEvents (EthTransactions.processTxBatches loc a qs db batches).2 = [] := by
  intro batches
  induction batches with
  | nil => intro db; rfl
  | cons b rest ih =>
    intro db
    by_cases hb : b.isEmpty
    · simpa [EthTransactions.processTxBatches, hb] using ih db
    · simp [EthTransactions.processTxBatches, hb, ih]

theorem addErrorEvents_processInternalTx (env : Env) (loc : String) (a : Address) (qs : Timestamp)
    (db : DBEthTx) (itx : EthereumInternalTransaction) :
    addErrorEvents ((EthTransactions.processInternalTx env loc a qs db itx).elim []
      (fun r => r.2)) = [] := by
  rcases hl : db.get_ethereum_transactions itx.parent_tx_hash with _ | ⟨t, ts⟩
  · rcases hf : env.get_transaction_by_hash itx.parent_tx_hash with _ | t
    · simp [EthTransactions.processInternalTx, hl, hf]
    · simp [EthTransactions.processInternalTx, hl, hf, addErrorEvents]
  · simp [EthTransactions.processInternalTx, hl, addErrorEvents]

theorem addErrorEvents_processInternalTxs (env : Env) (loc : String) (a : Address) (qs : Timestamp) :
    ∀ (records : List EthereumInternalTransaction) (db : DBEthTx),
      addErrorEvents (EthTransactions.processInternalTxs env loc a qs db records).2.1 = [] := by
  intro records
  induction records with
  | nil => intro db; rfl
  | cons itx rest ih =>
    intro db
    have h1 := addErrorEvents_processInternalTx env loc a qs db itx
    rcases hp : EthTransactions.processInternalTx env loc a qs db itx with _ | ⟨db1, evs1⟩
    · simp [EthTransactions.processInternalTxs, hp]
    · rw [hp] at h1
      simp only [Option.elim] at h1
      simp [EthTransactions.processInternalTxs, hp, h1, ih]

theorem addErrorEvents_processInternalBatches (env : Env) (loc : String) (a : Address) (qs : Timestamp) :
    ∀ (batches : List (List EthereumInternalTransaction)) (db : DBEthTx),
      addErrorEvents (EthTransactions.processInternalBatches env loc a qs db batches).2.1 = [] := by
  intro batches
  induction batches with
  | nil => intro db; rfl
  | cons b rest ih =>
    intro db
    by_cases hb : b.isEmpty
    · simpa [EthTransactions.processInternalBatches, hb] using ih db
    · by_cases hok : (EthTransactions.processInternalTxs env loc a qs db b).2.2
      · simp [EthTransactions.processInternalBatches, hb, hok,
          addErrorEvents_processInternalTxs, ih]
      · simp [EthTransactions.processInternalBatches, hb, hok,
          addErrorEvents_processInternalTxs]

theorem addErrorEvents_processTokenHash (env : Env) (loc : String) (a : Address) (qs : Timestamp)
    (db : DBEthTx) (h : EVMTxHash) :
    addErrorEvents ((EthTransactions.processTokenHash env loc a qs db h).elim []
      (fun r => r.2)) = [] := by
  rcases hl : db.get_ethereum_transactions h with _ | ⟨t, ts⟩
  · rcases hf : env.get_transaction_by_hash h with _ | t
    · simp [EthTransactions.processTokenHash, hl, hf]
    · simp [EthTransactions.processTokenHash, hl, hf, addErrorEvents]
  · simp [EthTransactions.processTokenHash, hl, addErrorEvents]

theorem addErrorEvents_processTokenHashes (env : Env) (loc : String) (a : Address) (qs : Timestamp) :
    ∀ (hashes : List EVMTxHash) (db : DBEthTx),
      addErrorEvents (EthTransactions.processTokenHashes env loc a qs db hashes).2.1 = [] := by
  intro hashes
  induction hashes with
  | nil => intro db; rfl
  | cons h rest ih =>
    intro db
    have h1 := addErrorEvents_processTokenHash env loc a qs db h
    rcases hp : EthTransactions.processTokenHash env loc a qs db h with _ | ⟨db1, evs1⟩
    · simp [EthTransactions.processTokenHashes, hp]
    · rw [hp] at h1
      simp only [Option.elim] at h1
      simp [EthTransactions.processTokenHashes, hp, h1, ih]

theorem addErrorEvents_processTokenBatches (env : Env) (loc : String) (a : Address) (qs : Timestamp) :
    ∀ (batches : List (List EVMTxHash)) (db : DBEthTx),
      addErrorEvents (EthTransactions.processTokenBatches env loc a qs db batches).2.1 = [] := by
  intro batches
  induction batches with
  | nil => intro db; rfl
  | cons b rest ih =>
    intro db
    by_cases hok : (EthTransactions.processTokenHashes env loc a qs db b).2.2
    · simp [EthTransactions.processTokenBatches, hok,
        addErrorEvents_processTokenHashes, ih]
    · simp [EthTransactions.processTokenBatches, hok,
        addErrorEvents_processTokenHashes]

theorem txGapsLoop_errors (env : Env) (loc : String) (a : Address) :
    ∀ (gaps : List (Timestamp × Timestamp)) (db : DBEthTx),
      addErrorEvents (EthTransactions.txGapsLoop env loc a db gaps).2.1 =
        ((EthTransactions.txGapsLoop env loc a db gaps).2.2).map
          (fun g => Event.addError a g.1 g.2)
      ∧ (EthTransactions.txGapsLoop env loc a db gaps).2.2 ⊆ gaps
      ∧ ((EthTransactions.txGapsLoop env loc a db gaps).2.2).length ≤ 1 := by
  intro gaps
  induction gaps with
  | nil =>
    intro db
    exact ⟨rfl, by simp [EthTransactions.txGapsLoop], by simp [EthTransactions.txGapsLoop]⟩
  | cons g rest ih =>
    intro db
    obtain ⟨qs, qe⟩ := g
    by_cases herr : (env.etherscan_get_transactions a qs qe).2
    · refine ⟨?_, ?_, ?_⟩ <;>
        simp [EthTransactions.txGapsLoop, herr, addErrorEvents_processTxBatches]
    · have ihx := ih (EthTransactions.processTxBatches loc a qs db
        (env.etherscan_get_transactions a qs qe).1).1
      refine ⟨?_, ?_, ?_⟩
      · simp [EthTransactions.txGapsLoop, herr, addErrorEvents_processTxBatches, ihx.1]
      · simp only [EthTransactions.txGapsLoop, Bool.not_eq_true] at *
        simp [herr]
        exact ihx.2.1.trans (List.subset_cons_self _ _)
      · simp only [EthTransactions.txGapsLoop, Bool.not_eq_true] at *
        simp [herr]
        exact ihx.2.2

theorem internalGapsLoop_errors (env : Env) (loc : String) (a : Address) :
    ∀ (gaps : List (Timestamp × Timestamp)) (db : DBEthTx),
      addErrorEvents (EthTransactions.internalGapsLoop env loc a db gaps).2.1 =
        ((EthTransactions.internalGapsLoop env loc a db gaps).2.2).map
          (fun g => Event.addError a g.1 g.2)
      ∧ (EthTransactions.internalGapsLoop env loc a db gaps).2.2 ⊆ gaps
      ∧ ((EthTransactions.internalGapsLoop env loc a db gaps).2.2).length ≤ 1 := by
  intro gaps
  induction gaps with
  | nil =>
    intro db
    exact ⟨rfl, by simp [EthTransactions.internalGapsLoop],
      by simp [EthTransactions.internalGapsLoop]⟩
  | cons g rest ih =>
    intro db
    obtain ⟨qs, qe⟩ := g
    by_cases hc : (EthTransactions.processInternalBatches env loc a qs db
        (env.etherscan_get_internal_transactions a qs qe).1).2.2
        && !(env.etherscan_get_internal_transactions a qs qe).2
    · have ihx := ih (EthTransactions.processInternalBatches env loc a qs db
        (env.etherscan_get_internal_transactions a qs qe).1).1
      refine ⟨?_, ?_, ?_⟩
      · simp [EthTransactions.internalGapsLoop, hc,
          addErrorEvents_processInternalBatches, ihx.1]
      · simp [EthTransactions.internalGapsLoop, hc]
        exact ihx.2.1.trans (List.subset_cons_self _ _)
      · simp [EthTransactions.internalGapsLoop, hc]
        exact ihx.2.2
    · refine ⟨?_, ?_, ?_⟩ <;>
        simp [EthTransactions.internalGapsLoop, hc,
          addErrorEvents_processInternalBatches]

theorem erc20GapsLoop_errors (env : Env) (loc : String) (a : Address) :
    ∀ (gaps : List (Timestamp × Timestamp)) (db : DBEthTx),
      addErrorEvents (EthTransactions.erc20GapsLoop env loc a db gaps).2.1 =
        ((EthTransactions.erc20GapsLoop env loc a db gaps).2.2).map
          (fun g => Event.addError a g.1 g.2)
      ∧ (EthTransactions.erc20GapsLoop env loc a db gaps).2.2 ⊆ gaps := by
  intro gaps
  induction gaps with
  | nil =>
    intro db
    exact ⟨rfl, by simp [EthTransactions.erc20GapsLoop]⟩
  | cons g rest ih =>
    intro db
    obtain ⟨qs, qe⟩ := g
    by_cases hc : (EthTransactions.processTokenBatches env loc a qs db
        (env.etherscan_get_token_transaction_hashes a qs qe).1).2.2
        && !(env.etherscan_get_token_transaction_hashes a qs qe).2
    · have ihx := ih (EthTransactions.processTokenBatches env loc a qs db
        (env.etherscan_get_token_transaction_hashes a qs qe).1).1
      refine ⟨?_, ?_⟩
      · simp [EthTransactions.erc20GapsLoop, hc,
          addErrorEvents_processTokenBatches, ihx.1]
      · simp [EthTransactions.erc20GapsLoop, hc]
        exact ihx.2.trans (List.subset_cons_self _ _)
    · have ihx := ih (EthTransactions.processTokenBatches env loc a qs db
        (env.etherscan_get_token_transaction_hashes a qs qe).1).1
      have hfail : (EthTransactions.erc20GapsLoop env loc a db ((qs, qe) :: rest)).2.2 =
          (qs, qe) :: (EthTransactions.erc20GapsLoop env loc a
            (EthTransactions.processTokenBatches env loc a qs db
              (env.etherscan_get_token_transaction_hashes a qs qe).1).1 rest).2.2 := by
        simp [EthTransactions.erc20GapsLoop, hc]
      refine ⟨?_, ?_⟩
      · simp [EthTransactions.erc20GapsLoop, hc,
          addErrorEvents_processTokenBatches, ihx.1]
      · rw [hfail]
        exact List.cons_subset_cons _ ihx.2

theorem get_transactions_for_range_errors (env : Env) (db : DBEthTx) (a : Address) (s e : Timestamp) :
    addErrorEvents (EthTransactions.get_transactions_for_range env db a s e).2 =
      ((EthTransactions.txGapsLoop env (locationOf RANGE_PREFIX_ETHTX a) a db
          (env.get_location_query_ranges (locationOf RANGE_PREFIX_ETHTX a) s e)).2.2).map
        (fun g => Event.addError a g.1 g.2) := by
  have h1 := (txGapsLoop_errors env (locationOf RANGE_PREFIX_ETHTX a) a
    (env.get_location_query_ranges (locationOf RANGE_PREFIX_ETHTX a) s e) db).1
  by_cases h : ((EthTransactions.txGapsLoop env (locationOf RANGE_PREFIX_ETHTX a) a db
      (env.get_location_query_ranges (locationOf RANGE_PREFIX_ETHTX a) s e)).2.2).isEmpty <;>
    simp [EthTransactions.get_transactions_for_range, h, h1]

theorem get_internal_transactions_for_ranges_errors (env : Env) (db : DBEthTx) (a : Address) (s e : Timestamp) :
    addErrorEvents (EthTransactions.get_internal_transactions_for_ranges env db a s e).2 =
      ((EthTransactions.internalGapsLoop env (locationOf RANGE_PREFIX_ETHINTERNALTX a) a db
          (env.get_location_query_ranges (locationOf RANGE_PREFIX_ETHINTERNALTX a) s e)).2.2).map
        (fun g => Event.addError a g.1 g.2) := by
  have h1 := (internalGapsLoop_errors env (locationOf RANGE_PREFIX_ETHINTERNALTX a) a
    (env.get_location_query_ranges (locationOf RANGE_PREFIX_ETHINTERNALTX a) s e) db).1
  by_cases h : ((EthTransactions.internalGapsLoop env (locationOf RANGE_PREFIX_ETHINTERNALTX a) a db
      (env.get_location_query_ranges (locationOf RANGE_PREFIX_ETHINTERNALTX a) s e)).2.2).isEmpty <;>
    simp [EthTransactions.get_internal_transactions_for_ranges, h, h1]

theorem get_erc20_transfers_for_ranges_errors (env : Env) (db : DBEthTx) (a : Address) (s e : Timestamp) :
    addErrorEvents (EthTransactions.get_erc20_transfers_for_ranges env db a s e).2 =
      ((EthTransactions.erc20GapsLoop env (locationOf RANGE_PREFIX_ETHTOKENTX a) a db
          (env.get_location_query_ranges (locationOf RANGE_PREFIX_ETHTOKENTX a) s e)).2.2).map
        (fun g => Event.addError a g.1 g.2) := by
  have h1 := (erc20GapsLoop_errors env (locationOf RANGE_PREFIX_ETHTOKENTX a) a
    (env.get_location_query_ranges (locationOf RANGE_PREFIX_ETHTOKENTX a) s e) db).1
  simp [EthTransactions.get_erc20_transfers_for_ranges, h1]

/-- C7: `single_address_query_transactions` never propagates a
`RemoteError` (every remote failure is modelled as a handled value and
the function is total); for each failed window exactly one error message
is recorded on the msg_aggregator, carrying the synced address and the
attempted `from_ts`/`to_ts` window; each reported window is one of the
gap windows of its category, and the base and internal categories report
at most one failure each (they abort on the first). -/
theorem remote_errors_reported_once_with_window :
    ∀ (env : Env) (db : DBEthTx) (a : Address) (s e : Timestamp),
      addErrorEvents (EthTransactions.single_address_query_transactions env db a s e).2 =
        ((EthTransactions.txGapsLoop env (locationOf RANGE_PREFIX_ETHTX a) a db
            (env.get_location_query_ranges (locationOf RANGE_PREFIX_ETHTX a) s e)).2.2).map
          (fun g => Event.addError a g.1 g.2)
        ++ ((EthTransactions.internalGapsLoop env (locationOf RANGE_PREFIX_ETHINTERNALTX a) a
            (EthTransactions.get_transactions_for_range env db a s e).1
            (env.get_location_query_ranges (locationOf RANGE_PREFIX_ETHINTERNALTX a) s e)).2.2).map
          (fun g => Event.addError a g.1 g.2)
        ++ ((EthTransactions.erc20GapsLoop env (locationOf RANGE_PREFIX_ETHTOKENTX a) a
            (EthTransactions.get_internal_transactions_for_ranges env
              (EthTransactions.get_transactions_for_range env db a s e).1 a s e).1
            (env.get_location_query_ranges (locationOf RANGE_PREFIX_ETHTOKENTX a) s e)).2.2).map
          (fun g => Event.addError a g.1 g.2)
      ∧ (EthTransactions.txGapsLoop env (locationOf RANGE_PREFIX_ETHTX a) a db
          (env.get_location_query_ranges (locationOf RANGE_PREFIX_ETHTX a) s e)).2.2 ⊆
            env.get_location_query_ranges (locationOf RANGE_PREFIX_ETHTX a) s e
      ∧ (EthTransactions.internalGapsLoop env (locationOf RANGE_PREFIX_ETHINTERNALTX a) a
          (EthTransactions.get_transactions_for_range env db a s e).1
          (env.get_location_query_ranges (locationOf RANGE_PREFIX_ETHINTERNALTX a) s e)).2.2 ⊆
            env.get_location_query_ranges (locationOf RANGE_PREFIX_ETHINTERNALTX a) s e
      ∧ (EthTransactions.erc20GapsLoop env (locationOf RANGE_PREFIX_ETHTOKENTX a) a
          (EthTransactions.get_internal_transactions_for_ranges env
            (EthTransactions.get_transactions_for_range env db a s e).1 a s e).1
          (env.get_location_query_ranges (locationOf RANGE_PREFIX_ETHTOKENTX a) s e)).2.2 ⊆
            env.get_location_query_ranges (locationOf RANGE_PREFIX_ETHTOKENTX a) s e
      ∧ ((EthTransactions.txGapsLoop env (locationOf RANGE_PREFIX_ETHTX a) a db
          (env.get_location_query_ranges (locationOf RANGE_PREFIX_ETHTX a) s e)).2.2).length ≤ 1
      ∧ ((EthTransactions.internalGapsLoop env (locationOf RANGE_PREFIX_ETHINTERNALTX a) a
          (EthTransactions.get_transactions_for_range env db a s e).1
          (env.get_location_query_ranges (locationOf RANGE_PREFIX_ETHINTERNALTX a) s e)).2.2).length ≤ 1 := by
  intro env db a s e
  refine ⟨?_,
    (txGapsLoop_errors env (locationOf RANGE_PREFIX_ETHTX a) a
      (env.get_location_query_ranges (locationOf RANGE_PREFIX_ETHTX a) s e) db).2.1,
    (internalGapsLoop_errors env (locationOf RANGE_PREFIX_ETHINTERNALTX a) a
      (env.get_location_query_ranges (locationOf RANGE_PREFIX_ETHINTERNALTX a) s e)
      (EthTransactions.get_transactions_for_range env db a s e).1).2.1,
    (erc20GapsLoop_errors env (locationOf RANGE_PREFIX_ETHTOKENTX a) a
      (env.get_location_query_ranges (locationOf RANGE_PREFIX_ETHTOKENTX a) s e)
      (EthTransactions.get_internal_transactions_for_ranges env
        (EthTransactions.get_transactions_for_range env db a s e).1 a s e).1).2,
    (txGapsLoop_errors env (locationOf RANGE_PREFIX_ETHTX a) a
      (env.get_location_query_ranges (locationOf RANGE_PREFIX_ETHTX a) s e) db).2.2,
    (internalGapsLoop_errors env (locationOf RANGE_PREFIX_ETHINTERNALTX a) a
      (env.get_location_query_ranges (locationOf RANGE_PREFIX_ETHINTERNALTX a) s e)
      (EthTransactions.get_transactions_for_range env db a s e).1).2.2⟩
  simp only [EthTransactions.single_address_query_transactions]
  simp [get_transactions_for_range_errors, get_internal_transactions_for_ranges_errors,
    get_erc20_transfers_for_ranges_errors]

/-! Lemmas about `addTxEvents`. -/

@[simp] theorem addTxEvents_nil : addTxEvents [] = [] := rfl

@[simp] theorem addTxEvents_append (l1 l2 : List Event) :
    addTxEvents (l1 ++ l2) = addTxEvents l1 ++ addTxEvents l2 := by
  simp [addTxEvents]

@[simp] theorem addTxEvents_fetchRange (act : String) (a : Address) (f t : Timestamp) (evs : List Event) :
    addTxEvents (Event.fetchRange act a f t :: evs) = addTxEvents evs := rfl

@[simp] theorem addTxEvents_fetchTxByHash (h : EVMTxHash) (evs : List Event) :
    addTxEvents (Event.fetchTxByHash h :: evs) = addTxEvents evs := rfl

@[simp] theorem addTxEvents_fetchReceipt (h : EVMTxHash) (evs : List Event) :
    addTxEvents (Event.fetchReceipt h :: evs) = addTxEvents evs := rfl

@[simp] theorem addTxEvents_addTx (txs : List EthereumTransaction) (ra : Option Address) (evs : List Event) :
    addTxEvents (Event.addTx txs ra :: evs) = (txs, ra) :: addTxEvents evs := rfl

@[simp] theorem addTxEvents_addInternalTx (txs : List EthereumInternalTransaction) (ra : Address) (evs : List Event) :
    addTxEvents (Event.addInternalTx txs ra :: evs) = addTxEvents evs := rfl

@[simp] theorem addTxEvents_addReceipt (r : EthereumTxReceipt) (evs : List Event) :
    addTxEvents (Event.addReceipt r :: evs) = addTxEvents evs := rfl

@[simp] theorem addTxEvents_updateRange (l : String) (s en : Timestamp) (evs : List Event) :
    addTxEvents (Event.updateRange l s en :: evs) = addTxEvents evs := rfl

@[simp] theorem addTxEvents_addError (a : Address) (f t : Timestamp) (evs : List Event) :
    addTxEvents (Event.addError a f t :: evs) = addTxEvents evs := rfl

/-! Store-level lemmas for the parent-presence invariant. -/

theorem internal_txs_addTx1 (db : DBEthTx) (t : EthereumTransaction) (ra : Option Address) :
    (db.addTx1 t ra).internal_txs = db.internal_txs := by
  unfold DBEthTx.addTx1
  split <;> rfl

theorem add_ethereum_transactions_cons (db : DBEthTx) (t : EthereumTransaction)
    (rest : List EthereumTransaction) (ra : Option Address) :
    db.add_ethereum_transactions (t :: rest) ra = (db.addTx1 t ra).add_ethereum_transactions rest ra := rfl

theorem internal_txs_add_ethereum_transactions (txs : List EthereumTransaction) :
    ∀ (db : DBEthTx) (ra : Option Address),
      (db.add_ethereum_transactions txs ra).internal_txs = db.internal_txs := by
  induction txs with
  | nil => intro db ra; rfl
  | cons t rest ih =>
    intro db ra
    rw [add_ethereum_transactions_cons, ih, internal_txs_addTx1]

theorem mem_addTx1 (db : DBEthTx) (t : EthereumTransaction) (ra : Option Address)
    (q : EthereumTransaction × Option Address) :
    q ∈ db.ethereum_txs → q ∈ (db.addTx1 t ra).ethereum_txs := by
  unfold DBEthTx.addTx1
  split
  · exact id
  · intro h
    exact List.mem_append_left _ h

theorem mem_add_ethereum_transactions (txs : List EthereumTransaction) :
    ∀ (db : DBEthTx) (ra : Option Address) (q : EthereumTransaction × Option Address),
      q ∈ db.ethereum_txs → q ∈ (db.add_ethereum_transactions txs ra).ethereum_txs := by
  induction txs with
  | nil => intro db ra q h; exact h
  | cons t rest ih =>
    intro db ra q h
    rw [add_ethereum_transactions_cons]
    exact ih _ ra q (mem_addTx1 db t ra q h)

theorem exists_hash_addTx1 (db : DBEthTx) (t : EthereumTransaction) (ra : Option Address) :
    ∃ q ∈ (db.addTx1 t ra).ethereum_txs, q.1.tx_hash = t.tx_hash := by
  unfold DBEthTx.addTx1
  by_cases h : db.ethereum_txs.any (fun p => p.1.tx_hash == t.tx_hash)
  · obtain ⟨p, hp, hb⟩ := List.any_eq_true.mp h
    exact ⟨p, by simp [h, hp], by simpa using hb⟩
  · exact ⟨(t, ra), by simp [h], rfl⟩

theorem parentsPresent_addTx1 (db : DBEthTx) (t : EthereumTransaction) (ra : Option Address)
    (h : parentsPresent db) : parentsPresent (db.addTx1 t ra) := by
  intro p hp
  rw [internal_txs_addTx1] at hp
  obtain ⟨q, hq, hqh⟩ := h p hp
  exact ⟨q, mem_addTx1 db t ra q hq, hqh⟩

theorem parentsPresent_add_ethereum_transactions (txs : List EthereumTransaction) :
    ∀ (db : DBEthTx) (ra : Option Address),
      parentsPresent db → parentsPresent (db.add_ethereum_transactions txs ra) := by
  induction txs with
  | nil => intro db ra h; exact h
  | cons t rest ih =>
    intro db ra h
    rw [add_ethereum_transactions_cons]
    exact ih _ ra (parentsPresent_addTx1 db t ra h)

theorem ethereum_txs_addInternalTx1 (db : DBEthTx) (t : EthereumInternalTransaction) (ra : Address) :
    (db.addInternalTx1 t ra).ethereum_txs = db.ethereum_txs := by
  unfold DBEthTx.addInternalTx1
  split <;> rfl

theorem mem_addInternalTx1 (db : DBEthTx) (t : EthereumInternalTransaction) (ra : Address)
    (p : EthereumInternalTransaction × Address) :
    p ∈ (db.addInternalTx1 t ra).internal_txs → p ∈ db.internal_txs ∨ p = (t, ra) := by
  unfold DBEthTx.addInternalTx1
  split
  · exact Or.inl
  · intro h
    simpa using List.mem_append.mp h

theorem parentsPresent_add_internal_single (db : DBEthTx) (itx : EthereumInternalTransaction)
    (a : Address) (h : parentsPresent db)
    (hpar : ∃ q ∈ db.ethereum_txs, q.1.tx_hash = itx.parent_tx_hash) :
    parentsPresent (db.add_ethereum_internal_transactions [itx] a) := by
  have he : db.add_ethereum_internal_transactions [itx] a = db.addInternalTx1 itx a := rfl
  rw [he]
  intro p hp
  rw [ethereum_txs_addInternalTx1]
  rcases mem_addInternalTx1 db itx a p hp with hm | hm
  · exact h p hm
  · subst hm
    exact hpar

theorem get_ethereum_transactions_mem (db : DBEthTx) (h : EVMTxHash) (r : EthereumTransaction) :
    r ∈ db.get_ethereum_transactions h → (∃ p ∈ db.ethereum_txs, p.1 = r) ∧ r.tx_hash = h := by
  unfold DBEthTx.get_ethereum_transactions
  intro hm
  obtain ⟨p, hp, hr⟩ := List.mem_map.mp hm
  obtain ⟨hpmem, hpcond⟩ := List.mem_filter.mp hp
  subst hr
  exact ⟨⟨p, hpmem, rfl⟩, by simpa using hpcond⟩

/-! Preservation of the parent-presence invariant through the engine. -/

theorem parentsPresent_processTxBatches (loc : String) (a : Address) (qs : Timestamp) :
    ∀ (batches : List (List EthereumTransaction)) (db : DBEthTx),
      parentsPresent db → parentsPresent (EthTransactions.processTxBatches loc a qs db batches).1 := by
  intro batches
  induction batches with
  | nil => intro db h; exact h
  | cons b rest ih =>
    intro db h
    by_cases hb : b.isEmpty
    · simpa [EthTransactions.processTxBatches, hb] using ih db h
    · simp only [EthTransactions.processTxBatches, if_neg hb]
      exact ih _ (parentsPresent_add_ethereum_transactions b db (some a) h)

theorem parentsPresent_txGapsLoop (env : Env) (loc : String) (a : Address) :
    ∀ (gaps : List (Timestamp × Timestamp)) (db : DBEthTx),
      parentsPresent db → parentsPresent (EthTransactions.txGapsLoop env loc a db gaps).1 := by
  intro gaps
  induction gaps with
  | nil => intro db h; exact h
  | cons g rest ih =>
    intro db h
    obtain ⟨qs, qe⟩ := g
    by_cases herr : (env.etherscan_get_transactions a qs qe).2
    · simp only [EthTransactions.txGapsLoop, herr, if_true]
      exact parentsPresent_processTxBatches loc a qs _ db h
    · simp [EthTransactions.txGapsLoop, herr]
      exact ih _ (parentsPresent_processTxBatches loc a qs _ db h)

theorem fst_get_transactions_for_range (env : Env) (db : DBEthTx) (a : Address) (s e : Timestamp) :
    (EthTransactions.get_transactions_for_range env db a s e).1 =
      (EthTransactions.txGapsLoop env (locationOf RANGE_PREFIX_ETHTX a) a db
        (env.get_location_query_ranges (locationOf RANGE_PREFIX_ETHTX a) s e)).1 := by
  by_cases hc : ((EthTransactions.txGapsLoop env (locationOf RANGE_PREFIX_ETHTX a) a db
      (env.get_location_query_ranges (locationOf RANGE_PREFIX_ETHTX a) s e)).2.2).isEmpty <;>
    simp [EthTransactions.get_transactions_for_range, hc]

theorem parentsPresent_get_transactions_for_range (env : Env) (db : DBEthTx) (a : Address)
    (s e : Timestamp) (h : parentsPresent db) :
    parentsPresent (EthTransactions.get_transactions_for_range env db a s e).1 := by
  rw [fst_get_transactions_for_range]
  exact parentsPresent_txGapsLoop env _ a _ db h

theorem parentsPresent_processInternalTx (env : Env) (loc : String) (a : Address) (qs : Timestamp)
    (db : DBEthTx) (itx : EthereumInternalTransaction)
    (henv : envHashConsistent env) (h : parentsPresent db) :
    parentsPresent ((EthTransactions.processInternalTx env loc a qs db itx).elim db
      (fun r => r.1)) := by
  rcases hl : db.get_ethereum_transactions itx.parent_tx_hash with _ | ⟨t, ts⟩
  · rcases hf : env.get_transaction_by_hash itx.parent_tx_hash with _ | tr
    · simpa [EthTransactions.processInternalTx, hl, hf] using h
    · simp only [EthTransactions.processInternalTx, hl, hf, Option.elim]
      apply parentsPresent_add_internal_single
      · exact parentsPresent_add_ethereum_transactions [tr] db (some a) h
      · have e1 : db.add_ethereum_transactions [tr] (some a) = db.addTx1 tr (some a) := rfl
        rw [e1]
        obtain ⟨q, hq, hqh⟩ := exists_hash_addTx1 db tr (some a)
        exact ⟨q, hq, by rw [hqh, henv _ _ hf]⟩
  · simp only [EthTransactions.processInternalTx, hl, Option.elim]
    apply parentsPresent_add_internal_single db itx a h
    have hmem : t ∈ db.get_ethereum_transactions itx.parent_tx_hash := by
      rw [hl]; exact List.mem_cons_self _ _
    obtain ⟨⟨p, hp, hpt⟩, hth⟩ := get_ethereum_transactions_mem db _ t hmem
    exact ⟨p, hp, by rw [hpt, hth]⟩

theorem parentsPresent_processInternalTxs (env : Env) (loc : String) (a : Address) (qs : Timestamp)
    (henv : envHashConsistent env) :
    ∀ (records : List EthereumInternalTransaction) (db : DBEthTx),
      parentsPresent db →
      parentsPresent (EthTransactions.processInternalTxs env loc a qs db records).1 := by
  intro records
  induction records with
  | nil => intro db h; exact h
  | cons itx rest ih =>
    intro db h
    have h1 := parentsPresent_processInternalTx env loc a qs db itx henv h
    rcases hp : EthTransactions.processInternalTx env loc a qs db itx with _ | r1
    · simpa [EthTransactions.processInternalTxs, hp] using h
    · rw [hp] at h1
      simp only [Option.elim] at h1
      simp only [EthTransactions.processInternalTxs, hp]
      exact ih _ h1

theorem parentsPresent_processInternalBatches (env : Env) (loc : String) (a : Address) (qs : Timestamp)
    (henv : envHashConsistent env) :
    ∀ (batches : List (List EthereumInternalTransaction)) (db : DBEthTx),
      parentsPresent db →
      parentsPresent (EthTransactions.processInternalBatches env loc a qs db batches).1 := by
  intro batches
  induction batches with
  | nil => intro db h; exact h
  | cons b rest ih =>
    intro db h
    by_cases hb : b.isEmpty
    · simpa [EthTransactions.processInternalBatches, hb] using ih db h
    · have h1 := parentsPresent_processInternalTxs env loc a qs henv b db h
      by_cases hok : (EthTransactions.processInternalTxs env loc a qs db b).2.2
      · simp only [EthTransactions.processInternalBatches, if_neg hb, hok, if_true]
        exact ih _ h1
      · simp [EthTransactions.processInternalBatches, hb, hok]
        exact h1

theorem parentsPresent_internalGapsLoop (env : Env) (loc : String) (a : Address)
    (henv : envHashConsistent env) :
    ∀ (gaps : List (Timestamp × Timestamp)) (db : DBEthTx),
      parentsPresent db →
      parentsPresent (EthTransactions.internalGapsLoop env loc a db gaps).1 := by
  intro gaps
  induction gaps with
  | nil => intro db h; exact h
  | cons g rest ih =>
    intro db h
    obtain ⟨qs, qe⟩ := g
    have h1 := parentsPresent_processInternalBatches env loc a qs henv
      (env.etherscan_get_internal_transactions a qs qe).1 db h
    by_cases hc : (EthTransactions.processInternalBatches env loc a qs db
        (env.etherscan_get_internal_transactions a qs qe).1).2.2
        && !(env.etherscan_get_internal_transactions a qs qe).2
    · simp only [EthTransactions.internalGapsLoop, hc, if_true]
      exact ih _ h1
    · simp [EthTransactions.internalGapsLoop, hc]
      exact h1

theorem fst_get_internal_transactions_for_ranges (env : Env) (db : DBEthTx) (a : Address) (s e : Timestamp) :
    (EthTransactions.get_internal_transactions_for_ranges env db a s e).1 =
      (EthTransactions.internalGapsLoop env (locationOf RANGE_PREFIX_ETHINTERNALTX a) a db
        (env.get_location_query_ranges (locationOf RANGE_PREFIX_ETHINTERNALTX a) s e)).1 := by
  by_cases hc : ((EthTransactions.internalGapsLoop env (locationOf RANGE_PREFIX_ETHINTERNALTX a) a db
      (env.get_location_query_ranges (locationOf RANGE_PREFIX_ETHINTERNALTX a) s e)).2.2).isEmpty <;>
    simp [EthTransactions.get_internal_transactions_for_ranges, hc]

theorem parentsPresent_get_internal_transactions_for_ranges (env : Env) (db : DBEthTx) (a : Address)
    (s e : Timestamp) (henv : envHashConsistent env) (h : parentsPresent db) :
    parentsPresent (EthTransactions.get_internal_transactions_for_ranges env db a s e).1 := by
  rw [fst_get_internal_transactions_for_ranges]
  exact parentsPresent_internalGapsLoop env _ a henv _ db h

theorem parentsPresent_processTokenHash (env : Env) (loc : String) (a : Address) (qs : Timestamp)
    (db : DBEthTx) (txh : EVMTxHash) (h : parentsPresent db) :
    parentsPresent ((EthTransactions.processTokenHash env loc a qs db txh).elim db
      (fun r => r.1)) := by
  rcases hl : db.get_ethereum_transactions txh with _ | ⟨t, ts⟩
  · rcases hf : env.get_transaction_by_hash txh with _ | tr
    · simpa [EthTransactions.processTokenHash, hl, hf] using h
    · simp only [EthTransactions.processTokenHash, hl, hf, Option.elim]
      exact parentsPresent_add_ethereum_transactions [tr] db (some a) h
  · simpa [EthTransactions.processTokenHash, hl] using h

theorem parentsPresent_processTokenHashes (env : Env) (loc : String) (a : Address) (qs : Timestamp) :
    ∀ (hashes : List EVMTxHash) (db : DBEthTx),
      parentsPresent db →
      parentsPresent (EthTransactions.processTokenHashes env loc a qs db hashes).1 := by
  intro hashes
  induction hashes with
  | nil => intro db h; exact h
  | cons txh rest ih =>
    intro db h
    have h1 := parentsPresent_processTokenHash env loc a qs db txh h
    rcases hp : EthTransactions.processTokenHash env loc a qs db txh with _ | r1
    · simpa [EthTransactions.processTokenHashes, hp] using h
    · rw [hp] at h1
      simp only [Option.elim] at h1
      simp only [EthTransactions.processTokenHashes, hp]
      exact ih _ h1

theorem parentsPresent_processTokenBatches (env : Env) (loc : String) (a : Address) (qs : Timestamp) :
    ∀ (batches : List (List EVMTxHash)) (db : DBEthTx),
      parentsPresent db →
      parentsPresent (EthTransactions.processTokenBatches env loc a qs db batches).1 := by
  intro batches
  induction batches with
  | nil => intro db h; exact h
  | cons b rest ih =>
    intro db h
    have h1 := parentsPresent_processTokenHashes env loc a qs b db h
    by_cases hok : (EthTransactions.processTokenHashes env loc a qs db b).2.2
    · simp only [EthTransactions.processTokenBatches, hok, if_true]
      exact ih _ h1
    · simp [EthTransactions.processTokenBatches, hok]
      exact h1

theorem parentsPresent_erc20GapsLoop (env : Env) (loc : String) (a : Address) :
    ∀ (gaps : List (Timestamp × Timestamp)) (db : DBEthTx),
      parentsPresent db →
      parentsPresent (EthTransactions.erc20GapsLoop env loc a db gaps).1 := by
  intro gaps
  induction gaps with
  | nil => intro db h; exact h
  | cons g rest ih =>
    intro db h
    obtain ⟨qs, qe⟩ := g
    have h1 := parentsPresent_processTokenBatches env loc a qs
      (env.etherscan_get_token_transaction_hashes a qs qe).1 db h
    by_cases hc : (EthTransactions.processTokenBatches env loc a qs db
        (env.etherscan_get_token_transaction_hashes a qs qe).1).2.2
        && !(env.etherscan_get_token_transaction_hashes a qs qe).2
    · simp only [EthTransactions.erc20GapsLoop, hc, if_true]
      exact ih _ h1
    · simp [EthTransactions.erc20GapsLoop, hc]
      exact ih _ h1

theorem fst_get_erc20_transfers_for_ranges (env : Env) (db : DBEthTx) (a : Address) (s e : Timestamp) :
    (EthTransactions.get_erc20_transfers_for_ranges env db a s e).1 =
      (EthTransactions.erc20GapsLoop env (locationOf RANGE_PREFIX_ETHTOKENTX a) a db
        (env.get_location_query_ranges (locationOf RANGE_PREFIX_ETHTOKENTX a) s e)).1 := rfl

theorem parentsPresent_get_erc20_transfers_for_ranges (env : Env) (db : DBEthTx) (a : Address)
    (s e : Timestamp) (h : parentsPresent db) :
    parentsPresent (EthTransactions.get_erc20_transfers_for_ranges env db a s e).1 := by
  rw [fst_get_erc20_transfers_for_ranges]
  exact parentsPresent_erc20GapsLoop env _ a _ db h

/-! Every stored transaction row of a category sync is stored under the
relevant address being synced. -/

theorem addTx_rel_processTxBatches (loc : String) (a : Address) (qs : Timestamp) :
    ∀ (batches : List (List EthereumTransaction)) (db : DBEthTx),
      ∀ p ∈ addTxEvents (EthTransactions.processTxBatches loc a qs db batches).2, p.2 = some a := by
  intro batches
  induction batches with
  | nil => intro db p hp; cases hp
  | cons b rest ih =>
    intro db p hp
    by_cases hb : b.isEmpty
    · exact ih _ p (by simpa [EthTransactions.processTxBatches, hb] using hp)
    · simp only [EthTransactions.processTxBatches, if_neg hb, addTxEvents_addTx,
        addTxEvents_updateRange, List.mem_cons] at hp
      rcases hp with rfl | hp
      · rfl
      · exact ih _ p hp

theorem addTx_rel_txGapsLoop (env : Env) (loc : String) (a : Address) :
    ∀ (gaps : List (Timestamp × Timestamp)) (db : DBEthTx),
      ∀ p ∈ addTxEvents (EthTransactions.txGapsLoop env loc a db gaps).2.1, p.2 = some a := by
  intro gaps
  induction gaps with
  | nil => intro db p hp; cases hp
  | cons g rest ih =>
    intro db p hp
    obtain ⟨qs, qe⟩ := g
    by_cases herr : (env.etherscan_get_transactions a qs qe).2
    · simp only [EthTransactions.txGapsLoop, herr, if_true, addTxEvents_fetchRange,
        addTxEvents_append, addTxEvents_addError, addTxEvents_nil, List.append_nil,
        List.mem_append] at hp
      exact addTx_rel_processTxBatches loc a qs _ db p hp
    · simp only [EthTransactions.txGapsLoop, herr, Bool.false_eq_true, if_false,
        addTxEvents_fetchRange, addTxEvents_append, List.mem_append] at hp
      rcases hp with hp | hp
      · exact addTx_rel_processTxBatches loc a qs _ db p hp
      · exact ih _ p hp

theorem addTx_rel_get_transactions_for_range (env : Env) (db : DBEthTx) (a : Address) (s e : Timestamp) :
    ∀ p ∈ addTxEvents (EthTransactions.get_transactions_for_range env db a s e).2, p.2 = some a := by
  intro p hp
  by_cases hc : ((EthTransactions.txGapsLoop env (locationOf RANGE_PREFIX_ETHTX a) a db
      (env.get_location_query_ranges (locationOf RANGE_PREFIX_ETHTX a) s e)).2.2).isEmpty
  · simp only [EthTransactions.get_transactions_for_range, hc, if_true, addTxEvents_append,
      addTxEvents_updateRange, addTxEvents_nil, List.append_nil] at hp
    exact addTx_rel_txGapsLoop env _ a _ db p hp
  · simp only [EthTransactions.get_transactions_for_range, hc, Bool.false_eq_true, if_false] at hp
    exact addTx_rel_txGapsLoop env _ a _ db p hp

theorem addTx_rel_processInternalTx (env : Env) (loc : String) (a : Address) (qs : Timestamp)
    (db : DBEthTx) (itx : EthereumInternalTransaction) :
    ∀ p ∈ addTxEvents ((EthTransactions.processInternalTx env loc a qs db itx).elim []
      (fun r => r.2)), p.2 = some a := by
  intro p hp
  rcases hl : db.get_ethereum_transactions itx.parent_tx_hash with _ | ⟨t, ts⟩
  · rcases hf : env.get_transaction_by_hash itx.parent_tx_hash with _ | tr
    · simp [EthTransactions.processInternalTx, hl, hf] at hp
    · simp [EthTransactions.processInternalTx, hl, hf, addTxEvents] at hp
      rw [hp]
  · simp [EthTransactions.processInternalTx, hl, addTxEvents] at hp

theorem addTx_rel_processInternalTxs (env : Env) (loc : String) (a : Address) (qs : Timestamp) :
    ∀ (records : List EthereumInternalTransaction) (db : DBEthTx),
      ∀ p ∈ addTxEvents (EthTransactions.processInternalTxs env loc a qs db records).2.1,
        p.2 = some a := by
  intro records
  induction records with
  | nil => intro db p hp; cases hp
  | cons itx rest ih =>
    intro db p hp
    have h1 := addTx_rel_processInternalTx env loc a qs db itx
    rcases hp2 : EthTransactions.processInternalTx env loc a qs db itx with _ | r1
    · simp [EthTransactions.processInternalTxs, hp2] at hp
    · rw [hp2] at h1
      simp only [Option.elim] at h1
      simp only [EthTransactions.processInternalTxs, hp2, addTxEvents_append, List.mem_append] at hp
      rcases hp with hp | hp
      · exact h1 p hp
      · exact ih _ p hp

theorem addTx_rel_processInternalBatches (env : Env) (loc : String) (a : Address) (qs : Timestamp) :
    ∀ (batches : List (List EthereumInternalTransaction)) (db : DBEthTx),
      ∀ p ∈ addTxEvents (EthTransactions.processInternalBatches env loc a qs db batches).2.1,
        p.2 = some a := by
  intro batches
  induction batches with
  | nil => intro db p hp; cases hp
  | cons b rest ih =>
    intro db p hp
    by_cases hb : b.isEmpty
    · exact ih _ p (by simpa [EthTransactions.processInternalBatches, hb] using hp)
    · by_cases hok : (EthTransactions.processInternalTxs env loc a qs db b).2.2
      · simp only [EthTransactions.processInternalBatches, if_neg hb, hok, if_true,
          addTxEvents_append, List.mem_append] at hp
        rcases hp with hp | hp
        · exact addTx_rel_processInternalTxs env loc a qs b db p hp
        · exact ih _ p hp
      · simp only [EthTransactions.processInternalBatches, if_neg hb, hok, Bool.false_eq_true,
          if_false] at hp
        exact addTx_rel_processInternalTxs env loc a qs b db p hp

theorem addTx_rel_internalGapsLoop (env : Env) (loc : String) (a : Address) :
    ∀ (gaps : List (Timestamp × Timestamp)) (db : DBEthTx),
      ∀ p ∈ addTxEvents (EthTransactions.internalGapsLoop env loc a db gaps).2.1, p.2 = some a := by
  intro gaps
  induction gaps with
  | nil => intro db p hp; cases hp
  | cons g rest ih =>
    intro db p hp
    obtain ⟨qs, qe⟩ := g
    by_cases hc : (EthTransactions.processInternalBatches env loc a qs db
        (env.etherscan_get_internal_transactions a qs qe).1).2.2
        && !(env.etherscan_get_internal_transactions a qs qe).2
    · simp only [EthTransactions.internalGapsLoop, hc, if_true, addTxEvents_fetchRange,
        addTxEvents_append, List.mem_append] at hp
      rcases hp with hp | hp
      · exact addTx_rel_processInternalBatches env loc a qs _ db p hp
      · exact ih _ p hp
    · simp only [EthTransactions.internalGapsLoop, hc, Bool.false_eq_true, if_false,
        addTxEvents_fetchRange, addTxEvents_append, addTxEvents_addError, addTxEvents_nil,
        List.append_nil, List.mem_append] at hp
      exact addTx_rel_processInternalBatches env loc a qs _ db p hp

theorem addTx_rel_get_internal_transactions_for_ranges (env : Env) (db : DBEthTx) (a : Address)
    (s e : Timestamp) :
    ∀ p ∈ addTxEvents (EthTransactions.get_internal_transactions_for_ranges env db a s e).2,
      p.2 = some a := by
  intro p hp
  by_cases hc : ((EthTransactions.internalGapsLoop env (locationOf RANGE_PREFIX_ETHINTERNALTX a) a db
      (env.get_location_query_ranges (locationOf RANGE_PREFIX_ETHINTERNALTX a) s e)).2.2).isEmpty
  · simp only [EthTransactions.get_internal_transactions_for_ranges, hc, if_true,
      addTxEvents_append, addTxEvents_updateRange, addTxEvents_nil, List.append_nil] at hp
    exact addTx_rel_internalGapsLoop env _ a _ db p hp
  · simp only [EthTransactions.get_internal_transactions_for_ranges, hc, Bool.false_eq_true,
      if_false] at hp
    exact addTx_rel_internalGapsLoop env _ a _ db p hp

theorem addTx_rel_processTokenHash (env : Env) (loc : String) (a : Address) (qs : Timestamp)
    (db : DBEthTx) (txh : EVMTxHash) :
    ∀ p ∈ addTxEvents ((EthTransactions.processTokenHash env loc a qs db txh).elim []
      (fun r => r.2)), p.2 = some a := by
  intro p hp
  rcases hl : db.get_ethereum_transactions txh with _ | ⟨t, ts⟩
  · rcases hf : env.get_transaction_by_hash txh with _ | tr
    · simp [EthTransactions.processTokenHash, hl, hf] at hp
    · simp [EthTransactions.processTokenHash, hl, hf, addTxEvents] at hp
      rw [hp]
  · simp [EthTransactions.processTokenHash, hl, addTxEvents] at hp

theorem addTx_rel_processTokenHashes (env : Env) (loc : String) (a : Address) (qs : Timestamp) :
    ∀ (hashes : List EVMTxHash) (db : DBEthTx),
      ∀ p ∈ addTxEvents (EthTransactions.processTokenHashes env loc a qs db hashes).2.1,
        p.2 = some a := by
  intro hashes
  induction hashes with
  | nil => intro db p hp; cases hp
  | cons txh rest ih =>
    intro db p hp
    have h1 := addTx_rel_processTokenHash env loc a qs db txh
    rcases hp2 : EthTransactions.processTokenHash env loc a qs db txh with _ | r1
    · simp [EthTransactions.processTokenHashes, hp2] at hp
    · rw [hp2] at h1
      simp only [Option.elim] at h1
      simp only [EthTransactions.processTokenHashes, hp2, addTxEvents_append, List.mem_append] at hp
      rcases hp with hp | hp
      · exact h1 p hp
      · exact ih _ p hp

theorem addTx_rel_processTokenBatches (env : Env) (loc : String) (a : Address) (qs : Timestamp) :
    ∀ (batches : List (List EVMTxHash)) (db : DBEthTx),
      ∀ p ∈ addTxEvents (EthTransactions.processTokenBatches env loc a qs db batches).2.1,
        p.2 = some a := by
  intro batches
  induction batches with
  | nil => intro db p hp; cases hp
  | cons b rest ih =>
    intro db p hp
    by_cases hok : (EthTransactions.processTokenHashes env loc a qs db b).2.2
    · simp only [EthTransactions.processTokenBatches, hok, if_true, addTxEvents_append,
        List.mem_append] at hp
      rcases hp with hp | hp
      · exact addTx_rel_processTokenHashes env loc a qs b db p hp
      · exact ih _ p hp
    · simp only [EthTransactions.processTokenBatches, hok, Bool.false_eq_true, if_false] at hp
      exact addTx_rel_processTokenHashes env loc a qs b db p hp

theorem addTx_rel_erc20GapsLoop (env : Env) (loc : String) (a : Address) :
    ∀ (gaps : List (Timestamp × Timestamp)) (db : DBEthTx),
      ∀ p ∈ addTxEvents (EthTransactions.erc20GapsLoop env loc a db gaps).2.1, p.2 = some a := by
  intro gaps
  induction gaps with
  | nil => intro db p hp; cases hp
  | cons g rest ih =>
    intro db p hp
    obtain ⟨qs, qe⟩ := g
    by_cases hc : (EthTransactions.processTokenBatches env loc a qs db
        (env.etherscan_get_token_transaction_hashes a qs qe).1).2.2
        && !(env.etherscan_get_token_transaction_hashes a qs qe).2
    · simp only [EthTransactions.erc20GapsLoop, hc, if_true, addTxEvents_fetchRange,
        addTxEvents_append, List.mem_append] at hp
      rcases hp with hp | hp
      · exact addTx_rel_processTokenBatches env loc a qs _ db p hp
      · exact ih _ p hp
    · simp only [EthTransactions.erc20GapsLoop, hc, Bool.false_eq_true, if_false,
        addTxEvents_fetchRange, addTxEvents_append, addTxEvents_addError, addTxEvents_nil,
        List.append_nil, List.mem_append] at hp
      rcases hp with hp | hp
      · exact addTx_rel_processTokenBatches env loc a qs _ db p hp
      · exact ih _ p hp

theorem addTx_rel_get_erc20_transfers_for_ranges (env : Env) (db : DBEthTx) (a : Address)
    (s e : Timestamp) :
    ∀ p ∈ addTxEvents (EthTransactions.get_erc20_transfers_for_ranges env db a s e).2,
      p.2 = some a := by
  intro p hp
  simp only [EthTransactions.get_erc20_transfers_for_ranges, addTxEvents_append,
    addTxEvents_updateRange, addTxEvents_nil, List.append_nil] at hp
  exact addTx_rel_erc20GapsLoop env _ a _ db p hp

/-- C3: throughout a full per-address sync, no internal-transaction row
ever exists in the store without its parent transaction row (a missing
parent is fetched by hash and stored first), and every transaction row a
category sync stores — in particular every parent fetched during
dependency resolution — is stored with relevant address equal to the
address being synced. -/
theorem sync_preserves_parent_presence :
    ∀ (env : Env) (db : DBEthTx) (a : Address) (s e : Timestamp),
      envHashConsistent env → parentsPresent db →
      parentsPresent (EthTransactions.single_address_query_transactions env db a s e).1
      ∧ ∀ p ∈ addTxEvents (EthTransactions.single_address_query_transactions env db a s e).2,
          p.2 = some a := by
  intro env db a s e henv h
  have h1 := parentsPresent_get_transactions_for_range env db a s e h
  have h2 := parentsPresent_get_internal_transactions_for_ranges env
    (EthTransactions.get_transactions_for_range env db a s e).1 a s e henv h1
  have h3 := parentsPresent_get_erc20_transfers_for_ranges env
    (EthTransactions.get_internal_transactions_for_ranges env
      (EthTransactions.get_transactions_for_range env db a s e).1 a s e).1 a s e h2
  refine ⟨h3, ?_⟩
  intro p hp
  simp only [EthTransactions.single_address_query_transactions, addTxEvents_append,
    List.mem_append] at hp
  rcases hp with (hp | hp) | hp
  · exact addTx_rel_get_transactions_for_range env db a s e p hp
  · exact addTx_rel_get_internal_transactions_for_ranges env _ a s e p hp
  · exact addTx_rel_get_erc20_transfers_for_ranges env _ a s e p hp

/-- Witness for C3: a concrete sync of address 5 over `(0, 50)` against
`envRich` — which requires fetching the missing parents 77 and 88 by
hash — starting from the empty store. -/
theorem sync_preserves_parent_presence_witness :
    envHashConsistent envRich ∧ parentsPresent dbEmpty ∧
      (parentsPresent (EthTransactions.single_address_query_transactions envRich dbEmpty 5 0 50).1
       ∧ ∀ p ∈ addTxEvents (EthTransactions.single_address_query_transactions envRich dbEmpty 5 0 50).2,
           p.2 = some 5) := by
  have he : envHashConsistent envRich := by
    intro h t ht
    by_cases h1 : h = 77
    · subst h1
      simp [envRich] at ht
      rw [← ht]
    · by_cases h2 : h = 88
      · subst h2
        simp [envRich, h1] at ht
        rw [← ht]
      · by_cases h3 : h = 42
        · subst h3
          simp [envRich, h1, h2] at ht
          rw [← ht]
          rfl
        · simp [envRich, h1, h2, h3] at ht
  have hp : parentsPresent dbEmpty := by
    intro p hp
    simp [dbEmpty] at hp
  exact ⟨he, hp, sync_preserves_parent_presence envRich dbEmpty 5 0 50 he hp⟩

/-- C4: when one internal transaction or one token-transfer hash is
processed successfully, the single `update_used_query_range` it emits
carries, as end, the parent transaction's timestamp — the stored parent
row's timestamp when the row exists, otherwise the freshly fetched
transaction's timestamp — and for an internal transaction the end does
not depend on the dependent record's own timestamp at all. -/
theorem dependent_range_end_is_parent_timestamp :
    ∀ (env : Env) (loc : String) (a : Address) (qs : Timestamp)
      (db1 : DBEthTx) (itx : EthereumInternalTransaction) (ts' : Timestamp)
      (db2 : DBEthTx) (txh : EVMTxHash),
      (EthTransactions.processInternalTx env loc a qs db1 itx).isSome = true →
      (EthTransactions.processTokenHash env loc a qs db2 txh).isSome = true →
      (∃ ts, rangeEnds loc ((EthTransactions.processInternalTx env loc a qs db1 itx).elim []
          (fun r => r.2)) = [ts]
        ∧ (match db1.get_ethereum_transactions itx.parent_tx_hash with
            | [] => (env.get_transaction_by_hash itx.parent_tx_hash).map
                (fun t => t.timestamp) = some ts
            | t :: _ => t.timestamp = ts)
        ∧ rangeEnds loc ((EthTransactions.processInternalTx env loc a qs db1
            { itx with timestamp := ts' }).elim [] (fun r => r.2)) = [ts])
      ∧ (∃ ts, rangeEnds loc ((EthTransactions.processTokenHash env loc a qs db2 txh).elim []
          (fun r => r.2)) = [ts]
        ∧ (match db2.get_ethereum_transactions txh with
            | [] => (env.get_transaction_by_hash txh).map (fun t => t.timestamp) = some ts
            | t :: _ => t.timestamp = ts)) := by
  intro env loc a qs db1 itx ts' db2 txh h1 h2
  constructor
  · rcases hl : db1.get_ethereum_transactions itx.parent_tx_hash with _ | ⟨t, ts0⟩
    · rcases hf : env.get_transaction_by_hash itx.parent_tx_hash with _ | tr
      · simp [EthTransactions.processInternalTx, hl, hf] at h1
      · have hl2 : db1.get_ethereum_transactions
            ({ itx with timestamp := ts' } : EthereumInternalTransaction).parent_tx_hash = [] := hl
        have hf2 : env.get_transaction_by_hash
            ({ itx with timestamp := ts' } : EthereumInternalTransaction).parent_tx_hash = some tr := hf
        refine ⟨tr.timestamp, ?_, ?_, ?_⟩
        · simp [EthTransactions.processInternalTx, hl, hf]
        · simp [hl, hf]
        · simp [EthTransactions.processInternalTx, hl2, hf2]
    · have hl2 : db1.get_ethereum_transactions
          ({ itx with timestamp := ts' } : EthereumInternalTransaction).parent_tx_hash = t :: ts0 := hl
      refine ⟨t.timestamp, ?_, ?_, ?_⟩
      · simp [EthTransactions.processInternalTx, hl]
      · simp only [hl]
      · simp [EthTransactions.processInternalTx, hl2]
  · rcases hl : db2.get_ethereum_transactions txh with _ | ⟨t, ts0⟩
    · rcases hf : env.get_transaction_by_hash txh with _ | tr
      · simp [EthTransactions.processTokenHash, hl, hf] at h2
      · refine ⟨tr.timestamp, ?_, ?_⟩
        · simp [EthTransactions.processTokenHash, hl, hf]
        · simp [hl, hf]
    · refine ⟨t.timestamp, ?_, ?_⟩
      · simp [EthTransactions.processTokenHash, hl]
      · simp only [hl]

/-- Witness for C4 at a concrete input: processing the internal
transaction with missing parent 77 against `envRich` (the parent is
fetched, its timestamp 35 is used, not the record's own timestamp 40),
and the token hash 42 against the store already holding `txA` (whose
stored timestamp 10 is used). -/
theorem dependent_range_end_is_parent_timestamp_witness :
    (∃ ts, rangeEnds (locationOf RANGE_PREFIX_ETHINTERNALTX 5)
        ((EthTransactions.processInternalTx envRich (locationOf RANGE_PREFIX_ETHINTERNALTX 5) 5 0
          dbEmpty { parent_tx_hash := 77, trace_id := 0, timestamp := 40 }).elim []
          (fun r => r.2)) = [ts]
      ∧ (match dbEmpty.get_ethereum_transactions
            ({ parent_tx_hash := 77, trace_id := 0, timestamp := 40 } :
              EthereumInternalTransaction).parent_tx_hash with
          | [] => (envRich.get_transaction_by_hash
              ({ parent_tx_hash := 77, trace_id := 0, timestamp := 40 } :
                EthereumInternalTransaction).parent_tx_hash).map
              (fun t => t.timestamp) = some ts
          | t :: _ => t.timestamp = ts)
      ∧ rangeEnds (locationOf RANGE_PREFIX_ETHINTERNALTX 5)
          ((EthTransactions.processInternalTx envRich (locationOf RANGE_PREFIX_ETHINTERNALTX 5) 5 0
            dbEmpty { parent_tx_hash := 77, trace_id := 0, timestamp := 41 }).elim []
            (fun r => r.2)) = [ts])
    ∧ (∃ ts, rangeEnds (locationOf RANGE_PREFIX_ETHINTERNALTX 5)
        ((EthTransactions.processTokenHash envRich (locationOf RANGE_PREFIX_ETHINTERNALTX 5) 5 0
          dbWithTx 42).elim [] (fun r => r.2)) = [ts]
      ∧ (match dbWithTx.get_ethereum_transactions 42 with
          | [] => (envRich.get_transaction_by_hash 42).map (fun t => t.timestamp) = some ts
          | t :: _ => t.timestamp = ts)) := by
  have T := dependent_range_end_is_parent_timestamp envRich
    (locationOf RANGE_PREFIX_ETHINTERNALTX 5) 5 0 dbEmpty
    { parent_tx_hash := 77, trace_id := 0, timestamp := 40 } 41 dbWithTx 42
    (by decide) (by decide)
  exact T

theorem get_receipt_add_receipt_data (db : DBEthTx) (rd : EthereumTxReceipt) (h : EVMTxHash)
    (hn : db.get_receipt h = none) (hh : rd.tx_hash = h) :
    (db.add_receipt_data rd).get_receipt h = some rd := by
  have hall : ∀ x ∈ db.receipts, ¬(x.tx_hash == h) = true := List.find?_eq_none.mp hn
  have hany : db.receipts.any (fun q => q.tx_hash == rd.tx_hash) = false := by
    rw [List.any_eq_false]
    intro x hx
    simpa [hh] using hall x hx
  unfold DBEthTx.add_receipt_data
  rw [hany]
  show ((db.receipts ++ [rd]).find? (fun r => r.tx_hash == h)) = some rd
  have hn' : List.find? (fun r => r.tx_hash == h) db.receipts = none := hn
  rw [List.find?_append, hn']
  simp [List.find?, hh]

/-- C9: `get_or_query_transaction_receipt` is read-through.  With the
transaction row present and a stored receipt, the stored receipt is
returned with no remote interaction and no store change; with the row
present but no stored receipt, the receipt is fetched, stored and
returned; with the row absent, the transaction is fetched by hash,
stored with no relevant address, a zero-width internal and token sync is
run at the transaction's timestamp for its from-address, and only then
is the receipt phase entered. -/
theorem receipt_read_through :
    ∀ (env : Env) (db1 db2 db3 : DBEthTx) (h : EVMTxHash) (r rd : EthereumTxReceipt)
      (t : EthereumTransaction),
      db1.get_ethereum_transactions h ≠ [] →
      db1.get_receipt h = some r →
      db2.get_ethereum_transactions h ≠ [] →
      db2.get_receipt h = none →
      env.get_transaction_receipt h = some rd →
      rd.tx_hash = h →
      db3.get_ethereum_transactions h = [] →
      env.get_transaction_by_hash h = some t →
      EthTransactions.get_or_query_transaction_receipt env db1 h = some (db1, [], r)
      ∧ EthTransactions.get_or_query_transaction_receipt env db2 h =
          some (db2.add_receipt_data rd, [Event.fetchReceipt h, Event.addReceipt rd], rd)
      ∧ EthTransactions.get_or_query_transaction_receipt env db3 h =
          EthTransactions.receiptPhase env
            (EthTransactions.get_erc20_transfers_for_ranges env
              (EthTransactions.get_internal_transactions_for_ranges env
                (db3.add_ethereum_transactions [t] none)
                t.from_address t.timestamp t.timestamp).1
              t.from_address t.timestamp t.timestamp).1
            ([Event.fetchTxByHash h, Event.addTx [t] none]
              ++ (EthTransactions.get_internal_transactions_for_ranges env
                  (db3.add_ethereum_transactions [t] none)
                  t.from_address t.timestamp t.timestamp).2
              ++ (EthTransactions.get_erc20_transfers_for_ranges env
                  (EthTransactions.get_internal_transactions_for_ranges env
                    (db3.add_ethereum_transactions [t] none)
                    t.from_address t.timestamp t.timestamp).1
                  t.from_address t.timestamp t.timestamp).2) h := by
  intro env db1 db2 db3 h r rd t h1a h1b h2a h2b h2c h2d h3a h3b
  refine ⟨?_, ?_, ?_⟩
  · rcases hc : db1.get_ethereum_transactions h with _ | ⟨x, xs⟩
    · exact absurd hc h1a
    · simp [EthTransactions.get_or_query_transaction_receipt, hc,
        EthTransactions.receiptPhase, h1b]
  · rcases hc : db2.get_ethereum_transactions h with _ | ⟨x, xs⟩
    · exact absurd hc h2a
    · have hadd := get_receipt_add_receipt_data db2 rd h h2b h2d
      simp [EthTransactions.get_or_query_transaction_receipt, hc,
        EthTransactions.receiptPhase, h2b, h2c, hadd]
  · simp [EthTransactions.get_or_query_transaction_receipt, h3a, h3b]

/-- Witness for C9 at concrete inputs: the store holding `txA` and its
receipt returns `rcA` untouched; the store holding only `txA` fetches
and stores `rcA`; the empty store first backfills `txA` (fetched by
hash 42) with a zero-width dependent sync at timestamp 10. -/
theorem receipt_read_through_witness :
    EthTransactions.get_or_query_transaction_receipt envReceipt dbWithTxAndReceipt 42 =
      some (dbWithTxAndReceipt, [], rcA)
    ∧ EthTransactions.get_or_query_transaction_receipt envReceipt dbWithTx 42 =
        some (dbWithTx.add_receipt_data rcA, [Event.fetchReceipt 42, Event.addReceipt rcA], rcA)
    ∧ EthTransactions.get_or_query_transaction_receipt envReceipt dbEmpty 42 =
        EthTransactions.receiptPhase envReceipt
          (EthTransactions.get_erc20_transfers_for_ranges envReceipt
            (EthTransactions.get_internal_transactions_for_ranges envReceipt
              (dbEmpty.add_ethereum_transactions [txA] none)
              txA.from_address txA.timestamp txA.timestamp).1
            txA.from_address txA.timestamp txA.timestamp).1
          ([Event.fetchTxByHash 42, Event.addTx [txA] none]
            ++ (EthTransactions.get_internal_transactions_for_ranges envReceipt
                (dbEmpty.add_ethereum_transactions [txA] none)
                txA.from_address txA.timestamp txA.timestamp).2
            ++ (EthTransactions.get_erc20_transfers_for_ranges envReceipt
                (EthTransactions.get_internal_transactions_for_ranges envReceipt
                  (dbEmpty.add_ethereum_transactions [txA] none)
                  txA.from_address txA.timestamp txA.timestamp).1
                txA.from_address txA.timestamp txA.timestamp).2) 42 := by
  exact receipt_read_through envReceipt dbWithTxAndReceipt dbWithTx dbEmpty 42 rcA rcA txA
    (by decide) (by decide) (by decide) (by decide) (by decide) (by decide) (by decide) (by decide)
